import Mathlib

/-!
Shallow embedding of the reconciliation engine of `canvas_lateness.py`
(Harvard-ATG/canvas-lateness-tool): the `process` function that joins
students, assignments and per-assignment submission lists into per-student
lateness reports, together with the timestamp parsing and rendering it
performs.  Record shapes follow the subsets of the Canvas data that the
code reads; Python `None` becomes `Option.none`, Python dicts become
association lists observed through lookup, Python `sorted` becomes
`List.mergeSort` (both are stable), and Python exceptions (`KeyError` from
a missing submissions entry, `ValueError` from timestamp parsing) become
an `Except` error monad.
-/

namespace CanvasLateness

/-! ## Python string and comparison primitives -/

/-- Byte-wise (code-point) comparison of character lists, modelling Python 2
string comparison used by `sorted` on ISO timestamp strings. -/
def charListLe : List Char → List Char → Bool
  | [], _ => true
  | _ :: _, [] => false
  | a :: as, b :: bs => if a.toNat = b.toNat then charListLe as bs else decide (a.toNat < b.toNat)

/-- String comparison via the underlying character list. -/
def strLe (a b : String) : Bool := charListLe a.data b.data

/-- Python 2 comparison on an optional string: `None` compares less than
every string, strings compare byte-wise. -/
def pyLeOptStr : Option String → Option String → Bool
  | none, _ => true
  | some _, none => false
  | some a, some b => strLe a b

/-- Python truthiness of a string: empty strings are falsy. -/
def pyStrTruthy (s : String) : Bool := !(s == "")

/-- Python truthiness of an optional string: `None` and `""` are falsy. -/
def pyOptStrTruthy : Option String → Bool
  | none => false
  | some s => pyStrTruthy s

/-! ## Timestamp parsing and rendering

Models `dateutil.parser.parse(iso).replace(tzinfo=UTC)` on the ISO-8601
UTC timestamps that the Canvas API produces (`YYYY-MM-DDTHH:MM:SSZ`),
returning seconds since the Unix epoch, and the rendering
`astimezone(America/New_York).strftime('%a, %b %d at %I:%M%p')` using the
post-2007 United States daylight-saving rule. -/

/-- Gregorian leap-year test. -/
def isLeapYear (y : Nat) : Bool := (y % 4 == 0 && y % 100 != 0) || y % 400 == 0

/-- Length in days of month `m` (1-12). -/
def monthLength (leap : Bool) (m : Nat) : Nat :=
  match m with
  | 1 => 31
  | 2 => if leap then 29 else 28
  | 3 => 31
  | 4 => 30
  | 5 => 31
  | 6 => 30
  | 7 => 31
  | 8 => 31
  | 9 => 30
  | 10 => 31
  | 11 => 30
  | 12 => 31
  | _ => 0

/-- Days in the year strictly before month `m` (1-12). -/
def daysBeforeMonth (leap : Bool) (m : Nat) : Nat :=
  let base := [0,31,59,90,120,151,181,212,243,273,304,334].getD (m - 1) 0
  if leap && decide (3 ≤ m) then base + 1 else base

/-- Days from 0001-01-01 to the start of year `y` (proleptic Gregorian). -/
def daysBeforeYear (y : Nat) : Nat :=
  let p := y - 1
  365 * p + p / 4 - p / 100 + p / 400

/-- Days since 1970-01-01 of the civil date `y-m-d`. -/
def epochDays (y m d : Nat) : Int :=
  (daysBeforeYear y + daysBeforeMonth (isLeapYear y) m + (d - 1) : Nat) - 719162

/-- Value of an ASCII digit character. -/
def digitVal (c : Char) : Option Nat :=
  let n := c.toNat
  if 48 ≤ n && n ≤ 57 then some (n - 48) else none

/-- Reads two ASCII digits from the front of a character list. -/
def parse2 : List Char → Option (Nat × List Char)
  | c1 :: c2 :: rest =>
    match digitVal c1, digitVal c2 with
    | some a, some b => some (10 * a + b, rest)
    | _, _ => none
  | _ => none

/-- Reads four ASCII digits from the front of a character list. -/
def parse4 : List Char → Option (Nat × List Char)
  | c1 :: c2 :: c3 :: c4 :: rest =>
    match digitVal c1, digitVal c2, digitVal c3, digitVal c4 with
    | some a, some b, some c, some d => some (1000 * a + 100 * b + 10 * c + d, rest)
    | _, _, _, _ => none
  | _ => none

/-- Consumes one expected character. -/
def expectChar (c : Char) : List Char → Option (List Char)
  | d :: rest => if d.toNat = c.toNat then some rest else none
  | [] => none

/-- Parses an ISO-8601 UTC timestamp `YYYY-MM-DDTHH:MM:SSZ` to seconds
since the Unix epoch; `none` models a `ValueError` from the parser. -/
def parseTs (s : String) : Option Int := do
  let (y, r1) ← parse4 s.data
  let r2 ← expectChar '-' r1
  let (mo, r3) ← parse2 r2
  let r4 ← expectChar '-' r3
  let (d, r5) ← parse2 r4
  let r6 ← expectChar 'T' r5
  let (h, r7) ← parse2 r6
  let r8 ← expectChar ':' r7
  let (mi, r9) ← parse2 r8
  let r10 ← expectChar ':' r9
  let (se, r11) ← parse2 r10
  let r12 ← expectChar 'Z' r11
  if r12.isEmpty && (1 ≤ y && 1 ≤ mo && mo ≤ 12 && 1 ≤ d &&
      d ≤ monthLength (isLeapYear y) mo && h ≤ 23 && mi ≤ 59 && se ≤ 59) then
    some (epochDays y mo d * 86400 + (h * 3600 + mi * 60 + se : Nat))
  else
    none

/-- Inverse of the civil-day count: year, month, day of a day number
relative to 1970-01-01 (Howard Hinnant's algorithm; `/` on `Int` is
floor division for positive divisors). -/
def civilFromDays (z0 : Int) : Int × Nat × Nat :=
  let z := z0 + 719468
  let era := z / 146097
  let doe := (z - era * 146097).toNat
  let yoe := (doe - doe / 1460 + doe / 36524 - doe / 146096) / 365
  let y : Int := (yoe : Int) + era * 400
  let doy := doe - (365 * yoe + yoe / 4 - yoe / 100)
  let mp := (5 * doy + 2) / 153
  let d := doy - (153 * mp + 2) / 5 + 1
  let m := if mp < 10 then mp + 3 else mp - 9
  (if m ≤ 2 then y + 1 else y, m, d)

/-- Weekday of a day number, Monday = 0 (1970-01-01 was a Thursday). -/
def weekdayOf (z : Int) : Nat := ((z + 3) % 7).toNat

/-- Day number of the first Sunday on or after day `z`. -/
def firstSundayOnOrAfter (z : Int) : Int := z + (6 - ((z + 3) % 7))

/-- Days since the epoch of `y-m-d` for an `Int` year. -/
def epochDaysZ (y : Int) (m d : Nat) : Int :=
  let p := y - 1
  365 * p + p / 4 - p / 100 + p / 400 +
    (daysBeforeMonth ((y % 4 == 0 && y % 100 != 0) || y % 400 == 0) m : Int) + (d - 1 : Nat) - 719162

/-- UTC instant at which US daylight-saving time starts in year `y`
(second Sunday of March, 02:00 EST = 07:00 UTC). -/
def dstStartUTC (y : Int) : Int :=
  (firstSundayOnOrAfter (epochDaysZ y 3 1) + 7) * 86400 + 7 * 3600

/-- UTC instant at which US daylight-saving time ends in year `y`
(first Sunday of November, 02:00 EDT = 06:00 UTC). -/
def dstEndUTC (y : Int) : Int :=
  firstSundayOnOrAfter (epochDaysZ y 11 1) * 86400 + 6 * 3600

/-- Whether a UTC epoch instant falls inside US Eastern daylight time. -/
def inDST (t : Int) : Bool :=
  let y := (civilFromDays (t / 86400)).1
  decide (dstStartUTC y ≤ t) && decide (t < dstEndUTC y)

/-- Seconds that US Eastern time lags behind UTC at instant `t`. -/
def estOffset (t : Int) : Int := if inDST t then 14400 else 18000

/-- Two-digit zero-padded decimal rendering. -/
def pad2 (n : Nat) : String := if n < 10 then "0" ++ toString n else toString n

/-- Abbreviated weekday name, Monday = 0. -/
def weekdayName (wd : Nat) : String :=
  ["Mon", "Tue", "Wed", "Thu", "Fri", "Sat", "Sun"].getD wd ""

/-- Abbreviated month name, 1-12. -/
def monthName (m : Nat) : String :=
  ["", "Jan", "Feb", "Mar", "Apr", "May", "Jun",
   "Jul", "Aug", "Sep", "Oct", "Nov", "Dec"].getD m ""

/-- Renders a UTC epoch instant in US Eastern time with the source's
`strftime` format string `'%a, %b %d at %I:%M%p'`. -/
def displayEST (t : Int) : String :=
  let lt := t - estOffset t
  let z := lt / 86400
  let md := (civilFromDays z).2
  let secs := (lt % 86400).toNat
  let h := secs / 3600
  let mi := secs % 3600 / 60
  let h12 := (h + 11) % 12 + 1
  weekdayName (weekdayOf z) ++ ", " ++ monthName md.1 ++ " " ++ pad2 md.2 ++
    " at " ++ pad2 h12 ++ ":" ++ pad2 mi ++ (if h < 12 then "AM" else "PM")

/-! ## Record shapes

The fields are those that `process` (and the loader that feeds it) reads.
Optional fields are ones the Canvas API reports as `null`-able. -/

/-- A student record as reduced by `api_get_students_list`. -/
structure Student where
  id : Nat
  sis_user_id : Option String
  sortable_name : Option String
  name : Option String
deriving Repr, DecidableEq

/-- An assignment record: the fields `process` reads. -/
structure Assignment where
  id : Nat
  name : String
  assignment_group_id : Option Int
  position : Int
  due_at : Option String
deriving Repr, DecidableEq

/-- One submission record: the fields `process` reads. -/
structure Submission where
  user_id : Nat
  assignment_id : Nat
  submitted_at : Option String
deriving Repr, DecidableEq

/-- One element of `data['submissions']`: an assignment id together with
all submission records fetched for that assignment. -/
structure SubItem where
  assignment_id : Nat
  submissions : List Submission
deriving Repr, DecidableEq

/-- The `data` dictionary handed to `process`. -/
structure InputData where
  students : List Student
  assignments : List Assignment
  submissions : List SubItem
deriving Repr, DecidableEq

/-- Per-assignment output row appended to `student_result['assignments']`. -/
structure AssignmentResult where
  assignment_id : Nat
  assignment_name : String
  due_date_iso : String
  due_date_display : String
  submission_date_iso : Option String
  submission_date_display : String
  time_delta_seconds : Option Int
deriving Repr, DecidableEq

/-- Per-student output row of `process`. -/
structure StudentReport where
  student_id : Nat
  student_name : Option String
  assignments : List AssignmentResult
  total_lateness_seconds : Int
  total_lateness_hours : Int
deriving Repr, DecidableEq

/-- Python exceptions that `process` can raise: a `KeyError` from the
`submissions_by_assignment[assignment_id]` lookup, or a parse failure on a
timestamp string. -/
inductive PErr where
  | keyError (assignment_id : Nat)
  | parseError (s : String)
deriving Repr, DecidableEq

/-! ## Python dict and exception plumbing -/

/-- Dictionary lookup on an association list whose most recent binding is
at the front. -/
def dictGet {κ α : Type} [DecidableEq κ] : List (κ × α) → κ → Option α
  | [], _ => none
  | p :: rest, k => if p.1 = k then some p.2 else dictGet rest k

/-- Models `d.setdefault(k, []).append(s)`: extends the list bound at `k`
(creating it when absent) by one element. -/
def dictAppend {κ α : Type} [DecidableEq κ] (m : List (κ × List α)) (k : κ) (s : α) :
    List (κ × List α) :=
  (k, (dictGet m k).getD [] ++ [s]) :: m

/-- A Python `for` loop with exceptions: stops at the first error. -/
def foldE {σ α ε : Type} (f : σ → α → Except ε σ) (init : σ) : List α → Except ε σ
  | [] => .ok init
  | a :: as =>
    match f init a with
    | .error e => .error e
    | .ok s => foldE f s as

/-- A Python loop building a list, stopping at the first error. -/
def mapE {α β ε : Type} (f : α → Except ε β) : List α → Except ε (List β)
  | [] => .ok []
  | a :: as =>
    match f a with
    | .error e => .error e
    | .ok b =>
      match mapE f as with
      | .error e => .error e
      | .ok bs => .ok (b :: bs)

/-! ## The reconciliation engine (`process`) -/

/-- Sort key comparison of line 113: the tuple
`(s['user_id'], s['assignment_id'], s['submitted_at'])` under Python 2
tuple order. -/
def subKeyLe (s t : Submission) : Bool :=
  if s.user_id = t.user_id then
    if s.assignment_id = t.assignment_id then pyLeOptStr s.submitted_at t.submitted_at
    else decide (s.assignment_id < t.assignment_id)
  else decide (s.user_id < t.user_id)

/-- Sort key comparison of line 129: the tuple
`(a.get('assignment_group_id', 0), a['position'])`. -/
def assignLe (a b : Assignment) : Bool :=
  if a.assignment_group_id.getD 0 = b.assignment_group_id.getD 0 then
    decide (a.position ≤ b.position)
  else decide (a.assignment_group_id.getD 0 < b.assignment_group_id.getD 0)

/-- The two indexes built by lines 107-116.  The nested
`submissions_by_student` dict is flattened to keys
`(user_id, assignment_id)`; it is only ever observed through two-level
lookups, for which this is equivalent. -/
structure SubIndex where
  byAssignment : List (Nat × List Submission)
  byStudent : List ((Nat × Nat) × List Submission)

/-- Processing of one element of `data['submissions']` (lines 109-116). -/
def groupStep (assignment_ids : List Nat) (acc : SubIndex) (item : SubItem) : SubIndex :=
  if assignment_ids.contains item.assignment_id then
    let sortedSubs := item.submissions.mergeSort subKeyLe
    { byAssignment := (item.assignment_id, sortedSubs) :: acc.byAssignment
      byStudent := sortedSubs.foldl
        (fun m s => dictAppend m (s.user_id, item.assignment_id) s) acc.byStudent }
  else acc

/-- Builds `submissions_by_assignment` and `submissions_by_student`. -/
def groupSubs (assignment_ids : List Nat) (items : List SubItem) : SubIndex :=
  items.foldl (groupStep assignment_ids) ⟨[], []⟩

/-- The student descriptor of lines 100-104: `student_identifier_choices`
lookup with fallback to `huid`.  For both recognised policies the sort key
and the display field coincide, so a single field selector models the
descriptor. -/
def studentField (student_identifier : Option String) : Student → Option String :=
  if student_identifier == some "huid" then fun s => s.sis_user_id
  else if student_identifier == some "name" then fun s => s.sortable_name
  else fun s => s.sis_user_id

/-- Lines 140-146: parse the due date and render its display string.  In
`process` this code runs only when `due_at` is truthy, but the embedded
guard is kept as in the source. -/
def dueInfo (a : Assignment) : Except PErr (Option Int × String) :=
  let due_date_iso := a.due_at.getD ""
  if pyStrTruthy due_date_iso then
    match parseTs due_date_iso with
    | some t => .ok (some t, displayEST t)
    | none => .error (.parseError due_date_iso)
  else .ok (none, "")

/-- Lines 148-157: take the last of the student's sorted submissions and
parse its timestamp.  Returns `(sub_date_iso, sub_date, sub_date_display)`
with `some ""` for the initial Python `''`. -/
def subInfo (student_assignment_subs : List Submission) :
    Except PErr (Option String × Option Int × String) :=
  match student_assignment_subs.getLast? with
  | none => .ok (some "", none, "")
  | some sub_item =>
    if pyOptStrTruthy sub_item.submitted_at then
      match parseTs (sub_item.submitted_at.getD "") with
      | some t => .ok (sub_item.submitted_at, some t, displayEST t)
      | none => .error (.parseError (sub_item.submitted_at.getD ""))
    else .ok (sub_item.submitted_at, none, "")

/-- Lines 140-179 past the skip check: parse the two timestamps, compute
the delta, and build the emitted row. -/
def buildRow (a : Assignment) (student_assignment_subs : List Submission) :
    Except PErr AssignmentResult :=
  match dueInfo a with
  | .error e => .error e
  | .ok (due_date, due_date_display) =>
    match subInfo student_assignment_subs with
    | .error e => .error e
    | .ok (sub_date_iso, sub_date, sub_date_display) =>
      let time_delta_seconds : Option Int :=
        match due_date, sub_date with
        | some dd, some sd => some (sd - dd)
        | _, _ => none
      .ok {
        assignment_id := a.id
        assignment_name := a.name
        due_date_iso := a.due_at.getD ""
        due_date_display := due_date_display
        submission_date_iso := sub_date_iso
        submission_date_display := sub_date_display
        time_delta_seconds := time_delta_seconds }

/-- Lines 130-179 for one assignment of one student: `none` when the
assignment is skipped (no submissions at all, or falsy due date), the
built `AssignmentResult` otherwise. -/
def processAssignment (byA : List (Nat × List Submission))
    (byS : List ((Nat × Nat) × List Submission)) (student : Student) (a : Assignment) :
    Except PErr (Option AssignmentResult) :=
  match dictGet byA a.id with
  | none => .error (.keyError a.id)
  | some assignment_subs =>
    if assignment_subs.length == 0 || !pyOptStrTruthy a.due_at then .ok none
    else
      match buildRow a ((dictGet byS (student.id, a.id)).getD []) with
      | .error e => .error e
      | .ok r => .ok (some r)

/-- Contribution of one emitted row to the running total (lines 166-168):
the delta when present and strictly positive, else nothing. -/
def lateContrib (r : AssignmentResult) : Int :=
  match r.time_delta_seconds with
  | some d => if 0 < d then d else 0
  | none => 0

/-- One iteration of the inner loop: append the emitted row (if any) and
accumulate the total. -/
def assignStep (byA : List (Nat × List Submission))
    (byS : List ((Nat × Nat) × List Submission)) (student : Student)
    (acc : List AssignmentResult × Int) (a : Assignment) :
    Except PErr (List AssignmentResult × Int) :=
  match processAssignment byA byS student a with
  | .error e => .error e
  | .ok none => .ok acc
  | .ok (some r) => .ok (acc.1 ++ [r], acc.2 + lateContrib r)

/-- Lines 122-185 for one student: the inner loop over sorted assignments
followed by the total fields.  `int(total/3600)` truncates toward zero,
hence `Int.tdiv`. -/
def studentReport (field : Student → Option String) (byA : List (Nat × List Submission))
    (byS : List ((Nat × Nat) × List Submission)) (sortedAssignments : List Assignment)
    (student : Student) : Except PErr StudentReport :=
  match foldE (assignStep byA byS student) ([], 0) sortedAssignments with
  | .error e => .error e
  | .ok (assts, total) => .ok {
      student_id := student.id
      student_name := field student
      assignments := assts
      total_lateness_seconds := total
      total_lateness_hours := total.tdiv 3600 }

/-- The body of `process` once the student descriptor is fixed. -/
def processWith (field : Student → Option String) (data : InputData) :
    Except PErr (List StudentReport) :=
  let assignment_ids := data.assignments.map (fun a => a.id)
  let idx := groupSubs assignment_ids data.submissions
  let sortedAssignments := data.assignments.mergeSort assignLe
  let sortedStudents :=
    data.students.mergeSort (fun s t => pyLeOptStr (field s) (field t))
  mapE (studentReport field idx.byAssignment idx.byStudent sortedAssignments) sortedStudents

/-- `process(data, student_identifier)` of `canvas_lateness.py`. -/
def process (data : InputData) (student_identifier : Option String) :
    Except PErr (List StudentReport) :=
  processWith (studentField student_identifier) data

/-! ## Observation functions used to state the claims -/

/-- All submission records for one assignment id, across every student and
every element of `data['submissions']`. -/
def allSubsFor (data : InputData) (aid : Nat) : List Submission :=
  ((data.submissions.filter (fun it => it.assignment_id == aid)).map
    (fun it => it.submissions)).flatten

/-- One student's submission records for one assignment id. -/
def studentSubsFor (data : InputData) (sid aid : Nat) : List Submission :=
  (allSubsFor data aid).filter (fun s => s.user_id == sid)

/-- An assignment with a falsy due timestamp (`null` or the empty string)
has no due timestamp. -/
def hasNoDue (a : Assignment) : Bool := !pyOptStrTruthy a.due_at

/-- The global skip condition of line 135: no submission records at all,
or no due timestamp. -/
def skippedGlobal (data : InputData) (a : Assignment) : Bool :=
  (allSubsFor data a.id).isEmpty || hasNoDue a

/-- The maximum of a list of optional timestamps under the Python 2 order
(`None` below every string). -/
def maxTs (l : List (Option String)) : Option String :=
  l.foldl (fun acc t => if pyLeOptStr acc t then t else acc) none

/-- The property of an emitted row that its delta and display strings are
computed from the parses of its own timestamp fields. -/
def rowDelta (r : AssignmentResult) : Prop :=
  ∃ dt, parseTs r.due_date_iso = some dt ∧ r.due_date_display = displayEST dt ∧
    (pyOptStrTruthy r.submission_date_iso = false →
      r.time_delta_seconds = none ∧ r.submission_date_display = "") ∧
    (pyOptStrTruthy r.submission_date_iso = true →
      ∃ ts, parseTs (r.submission_date_iso.getD "") = some ts ∧
        r.time_delta_seconds = some (ts - dt) ∧ r.submission_date_display = displayEST ts)

/-- The `submissions_by_assignment` index of a run. -/
def theByA (data : InputData) : List (Nat × List Submission) :=
  (groupSubs (data.assignments.map (fun a => a.id)) data.submissions).byAssignment

/-- The `submissions_by_student` index of a run. -/
def theByS (data : InputData) : List ((Nat × Nat) × List Submission) :=
  (groupSubs (data.assignments.map (fun a => a.id)) data.submissions).byStudent

/-- The sorted student list of a run. -/
def sortedStudents (pol : Option String) (data : InputData) : List Student :=
  data.students.mergeSort (fun s t => pyLeOptStr (studentField pol s) (studentField pol t))

/-- The sorted assignment list of a run. -/
def sortedAssignments (data : InputData) : List Assignment :=
  data.assignments.mergeSort assignLe

/-- The assignment sort key of line 129. -/
def groupPosKey (a : Assignment) : Int × Int := (a.assignment_group_id.getD 0, a.position)

/-- Lexicographic comparison of assignment sort keys. -/
def keyPairLe (x y : Int × Int) : Bool :=
  if x.1 = y.1 then decide (x.2 ≤ y.2) else decide (x.1 < y.1)

/-- The sort key of the assignment with a given id (unique ids assumed
where this is used). -/
def assignKeyOf (data : InputData) (aid : Nat) : Int × Int :=
  match data.assignments.find? (fun a => a.id == aid) with
  | some a => groupPosKey a
  | none => (0, 0)

/-! ## Concrete data for witnesses and counterexamples -/

/-- A student with both identifier fields present. -/
def exStudent1 : Student :=
  { id := 1, sis_user_id := some "11111111", sortable_name := some "Alpha, A",
    name := some "A Alpha" }

/-- A student whose institutional id and sortable name are absent. -/
def exStudent2 : Student :=
  { id := 2, sis_user_id := none, sortable_name := none, name := some "B Beta" }

/-- An assignment with a due date. -/
def exAssignment1 : Assignment :=
  { id := 10, name := "HW1", assignment_group_id := some 1, position := 1,
    due_at := some "2023-01-10T17:00:00Z" }

/-- An assignment with no due date. -/
def exAssignment2 : Assignment :=
  { id := 11, name := "HW2", assignment_group_id := some 1, position := 2, due_at := none }

/-- Submissions: student 1 submits twice (late resubmission), student 2
submits early once. -/
def exSubs : List Submission :=
  [ { user_id := 1, assignment_id := 10, submitted_at := some "2023-01-10T15:00:00Z" },
    { user_id := 1, assignment_id := 10, submitted_at := some "2023-01-10T19:30:00Z" },
    { user_id := 2, assignment_id := 10, submitted_at := some "2023-01-10T15:00:00Z" } ]

/-- A complete well-formed input. -/
def exData : InputData :=
  { students := [exStudent1, exStudent2]
    assignments := [exAssignment1, exAssignment2]
    submissions := [⟨10, exSubs⟩, ⟨11, []⟩] }

/-- An input with one assignment, no submissions entries and no students. -/
def cexData : InputData :=
  { students := [], assignments := [exAssignment1], submissions := [] }

/-- The same input with one student. -/
def cexDataStu : InputData :=
  { students := [exStudent1], assignments := [exAssignment1], submissions := [] }

/-! ## A structural sort for concrete evaluation

`List.mergeSort` is defined by well-founded recursion and does not reduce
definitionally, so concrete runs are evaluated through an insertion sort
proved equal to it (both are stable sorts for a total transitive
comparison). -/

/-- Inserts `a` before the first element `b` with `le a b`. -/
def orderedInsertB {α : Type} (le : α → α → Bool) (a : α) : List α → List α
  | [] => [a]
  | b :: l => if le a b then a :: b :: l else b :: orderedInsertB le a l

/-- Structural stable insertion sort. -/
def insertionSortB {α : Type} (le : α → α → Bool) : List α → List α
  | [] => []
  | b :: l => orderedInsertB le b (insertionSortB le l)

/-- `groupStep` with the structural sort. -/
def groupStepE (assignment_ids : List Nat) (acc : SubIndex) (item : SubItem) : SubIndex :=
  if assignment_ids.contains item.assignment_id then
    let sortedSubs := insertionSortB subKeyLe item.submissions
    { byAssignment := (item.assignment_id, sortedSubs) :: acc.byAssignment
      byStudent := sortedSubs.foldl
        (fun m s => dictAppend m (s.user_id, item.assignment_id) s) acc.byStudent }
  else acc

/-- `groupSubs` with the structural sort. -/
def groupSubsE (assignment_ids : List Nat) (items : List SubItem) : SubIndex :=
  items.foldl (groupStepE assignment_ids) ⟨[], []⟩

/-- `process` with every sort replaced by the structural sort; proved
equal to `process` below and used to evaluate concrete runs. -/
def processEval (data : InputData) (pol : Option String) :
    Except PErr (List StudentReport) :=
  let assignment_ids := data.assignments.map (fun a => a.id)
  let idx := groupSubsE assignment_ids data.submissions
  mapE (studentReport (studentField pol) idx.byAssignment idx.byStudent
      (insertionSortB assignLe data.assignments))
    (insertionSortB (fun s t => pyLeOptStr (studentField pol s) (studentField pol t))
      data.students)

/-! ## Concrete outputs for the witness input -/

/-- The row of student 2 for assignment 10 in the witness run. -/
def exRowStudent2 : AssignmentResult :=
  { assignment_id := 10, assignment_name := "HW1",
    due_date_iso := "2023-01-10T17:00:00Z",
    due_date_display := "Tue, Jan 10 at 12:00PM",
    submission_date_iso := some "2023-01-10T15:00:00Z",
    submission_date_display := "Tue, Jan 10 at 10:00AM",
    time_delta_seconds := some (-7200) }

/-- The row of student 1 for assignment 10 in the witness run. -/
def exRowStudent1 : AssignmentResult :=
  { assignment_id := 10, assignment_name := "HW1",
    due_date_iso := "2023-01-10T17:00:00Z",
    due_date_display := "Tue, Jan 10 at 12:00PM",
    submission_date_iso := some "2023-01-10T19:30:00Z",
    submission_date_display := "Tue, Jan 10 at 02:30PM",
    time_delta_seconds := some 9000 }

/-- Report of student 2 in the witness run. -/
def exReport2 : StudentReport :=
  { student_id := 2, student_name := none, assignments := [exRowStudent2],
    total_lateness_seconds := 0, total_lateness_hours := 0 }

/-- Report of student 1 in the witness run. -/
def exReport1 : StudentReport :=
  { student_id := 1, student_name := some "11111111", assignments := [exRowStudent1],
    total_lateness_seconds := 9000, total_lateness_hours := 2 }

/-- The full output of the witness run under the `huid` policy. -/
def exOut : List StudentReport := [exReport2, exReport1]

/-! ## Order lemmas for the comparison functions -/

theorem char_eq_of_toNat_eq {a b : Char} (h : a.toNat = b.toNat) : a = b := by
  apply Char.ext
  apply UInt32.eq_of_toBitVec_eq
  apply BitVec.eq_of_toNat_eq
  exact h

theorem charListLe_refl : ∀ a, charListLe a a = true
  | [] => rfl
  | c :: cs => by simp [charListLe, charListLe_refl cs]

theorem charListLe_total : ∀ a b, charListLe a b = true ∨ charListLe b a = true
  | [], _ => Or.inl rfl
  | _ :: _, [] => Or.inr rfl
  | a :: as, b :: bs => by
    simp only [charListLe]
    rcases Nat.lt_trichotomy a.toNat b.toNat with h | h | h
    · rw [if_neg (by omega), if_neg (by omega)]
      left; simpa using h
    · rw [if_pos h, if_pos h.symm]
      exact charListLe_total as bs
    · rw [if_neg (by omega), if_neg (by omega)]
      right; simpa using h

theorem charListLe_trans : ∀ {a b c}, charListLe a b = true → charListLe b c = true →
    charListLe a c = true
  | [], _, _, _, _ => rfl
  | _ :: _, [], _, h, _ => by simp [charListLe] at h
  | _ :: _, _ :: _, [], _, h => by simp [charListLe] at h
  | a :: as, b :: bs, c :: cs, h1, h2 => by
    simp only [charListLe] at h1 h2 ⊢
    by_cases hab : a.toNat = b.toNat
    · rw [if_pos hab] at h1
      by_cases hbc : b.toNat = c.toNat
      · rw [if_pos hbc] at h2
        rw [hab, hbc, if_pos rfl]
        exact charListLe_trans h1 h2
      · rw [if_neg hbc] at h2
        rw [if_neg (by omega), decide_eq_true_eq]
        simp only [decide_eq_true_eq] at h2
        omega
    · rw [if_neg hab, decide_eq_true_eq] at h1
      by_cases hbc : b.toNat = c.toNat
      · rw [if_neg (by omega), decide_eq_true_eq]
        omega
      · rw [if_neg hbc, decide_eq_true_eq] at h2
        rw [if_neg (by omega), decide_eq_true_eq]
        omega

theorem charListLe_antisymm : ∀ {a b}, charListLe a b = true → charListLe b a = true → a = b
  | [], [], _, _ => rfl
  | [], _ :: _, _, h => by simp [charListLe] at h
  | _ :: _, [], h, _ => by simp [charListLe] at h
  | a :: as, b :: bs, h1, h2 => by
    simp only [charListLe] at h1 h2
    by_cases hab : a.toNat = b.toNat
    · rw [if_pos hab] at h1
      rw [if_pos (hab.symm)] at h2
      rw [char_eq_of_toNat_eq hab, charListLe_antisymm h1 h2]
    · rw [if_neg hab, decide_eq_true_eq] at h1
      rw [if_neg (fun h => hab h.symm), decide_eq_true_eq] at h2
      omega

theorem strLe_refl (a : String) : strLe a a = true := charListLe_refl a.data

theorem strLe_total (a b : String) : strLe a b = true ∨ strLe b a = true :=
  charListLe_total a.data b.data

theorem strLe_trans {a b c : String} (h1 : strLe a b = true) (h2 : strLe b c = true) :
    strLe a c = true := charListLe_trans h1 h2

theorem strLe_antisymm {a b : String} (h1 : strLe a b = true) (h2 : strLe b a = true) :
    a = b := String.ext (charListLe_antisymm h1 h2)

theorem pyLeOptStr_refl (a : Option String) : pyLeOptStr a a = true := by
  cases a with
  | none => rfl
  | some s => exact strLe_refl s

theorem pyLeOptStr_total (a b : Option String) :
    pyLeOptStr a b = true ∨ pyLeOptStr b a = true := by
  cases a with
  | none => exact Or.inl rfl
  | some s =>
    cases b with
    | none => exact Or.inr rfl
    | some t => exact strLe_total s t

theorem pyLeOptStr_trans {a b c : Option String} (h1 : pyLeOptStr a b = true)
    (h2 : pyLeOptStr b c = true) : pyLeOptStr a c = true := by
  cases a with
  | none => rfl
  | some s =>
    cases b with
    | none => simp [pyLeOptStr] at h1
    | some t =>
      cases c with
      | none => simp [pyLeOptStr] at h2
      | some u => exact strLe_trans h1 h2

theorem pyLeOptStr_antisymm {a b : Option String} (h1 : pyLeOptStr a b = true)
    (h2 : pyLeOptStr b a = true) : a = b := by
  cases a with
  | none =>
    cases b with
    | none => rfl
    | some t => simp [pyLeOptStr] at h2
  | some s =>
    cases b with
    | none => simp [pyLeOptStr] at h1
    | some t => rw [strLe_antisymm h1 h2]

theorem pyLeOptStr_total_bool (a b : Option String) :
    (pyLeOptStr a b || pyLeOptStr b a) = true := by
  rcases pyLeOptStr_total a b with h | h <;> simp [h]

theorem subKeyLe_total (s t : Submission) : (subKeyLe s t || subKeyLe t s) = true := by
  simp only [subKeyLe]
  by_cases h1 : s.user_id = t.user_id
  · rw [if_pos h1, if_pos h1.symm]
    by_cases h2 : s.assignment_id = t.assignment_id
    · rw [if_pos h2, if_pos h2.symm]
      exact pyLeOptStr_total_bool _ _
    · rw [if_neg h2, if_neg (fun h => h2 h.symm)]
      simp only [Bool.or_eq_true, decide_eq_true_eq]
      omega
  · rw [if_neg h1, if_neg (fun h => h1 h.symm)]
    simp only [Bool.or_eq_true, decide_eq_true_eq]
    omega

theorem subKeyLe_trans (a b c : Submission) (h1 : subKeyLe a b = true)
    (h2 : subKeyLe b c = true) : subKeyLe a c = true := by
  simp only [subKeyLe] at h1 h2 ⊢
  by_cases hab : a.user_id = b.user_id
  · rw [if_pos hab] at h1
    by_cases hbc : b.user_id = c.user_id
    · rw [if_pos hbc] at h2
      rw [if_pos (hab.trans hbc)]
      by_cases gab : a.assignment_id = b.assignment_id
      · rw [if_pos gab] at h1
        by_cases gbc : b.assignment_id = c.assignment_id
        · rw [if_pos gbc] at h2
          rw [if_pos (gab.trans gbc)]
          exact pyLeOptStr_trans h1 h2
        · rw [if_neg gbc, decide_eq_true_eq] at h2
          rw [if_neg (by omega), decide_eq_true_eq]
          omega
      · rw [if_neg gab, decide_eq_true_eq] at h1
        by_cases gbc : b.assignment_id = c.assignment_id
        · rw [if_neg (by omega), decide_eq_true_eq]
          omega
        · rw [if_neg gbc, decide_eq_true_eq] at h2
          rw [if_neg (by omega), decide_eq_true_eq]
          omega
    · rw [if_neg hbc, decide_eq_true_eq] at h2
      rw [if_neg (by omega), decide_eq_true_eq]
      omega
  · rw [if_neg hab, decide_eq_true_eq] at h1
    by_cases hbc : b.user_id = c.user_id
    · rw [if_neg (by omega), decide_eq_true_eq]
      omega
    · rw [if_neg hbc, decide_eq_true_eq] at h2
      rw [if_neg (by omega), decide_eq_true_eq]
      omega

theorem assignLe_total (a b : Assignment) : (assignLe a b || assignLe b a) = true := by
  simp only [assignLe]
  by_cases h1 : a.assignment_group_id.getD 0 = b.assignment_group_id.getD 0
  · rw [if_pos h1, if_pos h1.symm]
    simp only [Bool.or_eq_true, decide_eq_true_eq]
    omega
  · rw [if_neg h1, if_neg (fun h => h1 h.symm)]
    simp only [Bool.or_eq_true, decide_eq_true_eq]
    omega

theorem assignLe_trans (a b c : Assignment) (h1 : assignLe a b = true)
    (h2 : assignLe b c = true) : assignLe a c = true := by
  simp only [assignLe] at h1 h2 ⊢
  by_cases hab : a.assignment_group_id.getD 0 = b.assignment_group_id.getD 0
  · rw [if_pos hab] at h1
    by_cases hbc : b.assignment_group_id.getD 0 = c.assignment_group_id.getD 0
    · rw [if_pos hbc] at h2
      rw [if_pos (hab.trans hbc)]
      simp only [decide_eq_true_eq] at h1 h2 ⊢
      omega
    · rw [if_neg hbc, decide_eq_true_eq] at h2
      rw [if_neg (by omega), decide_eq_true_eq]
      omega
  · rw [if_neg hab, decide_eq_true_eq] at h1
    by_cases hbc : b.assignment_group_id.getD 0 = c.assignment_group_id.getD 0
    · rw [if_neg (by omega), decide_eq_true_eq]
      omega
    · rw [if_neg hbc, decide_eq_true_eq] at h2
      rw [if_neg (by omega), decide_eq_true_eq]
      omega

/-! ## Dictionary lemmas -/

theorem dictGet_dictAppend {κ α : Type} [DecidableEq κ] (m : List (κ × List α)) (k k' : κ)
    (s : α) : dictGet (dictAppend m k s) k' =
      if k = k' then some ((dictGet m k).getD [] ++ [s]) else dictGet m k' := by
  simp [dictAppend, dictGet]

/-- Lookup after the per-item `setdefault`-append loop at the key of the
loop: the previous binding extended by the submissions of this user, in
traversal order. -/
theorem dictGet_foldl_dictAppend (l : List Submission) (aid : Nat)
    (m : List ((Nat × Nat) × List Submission)) (u : Nat) :
    (dictGet (l.foldl (fun m s => dictAppend m (s.user_id, aid) s) m) (u, aid)).getD []
      = (dictGet m (u, aid)).getD [] ++ l.filter (fun s => s.user_id == u) := by
  induction l generalizing m with
  | nil => simp
  | cons s rest ih =>
    simp only [List.foldl_cons, List.filter_cons]
    rw [ih]
    by_cases hu : s.user_id = u
    · subst hu
      rw [dictGet_dictAppend, if_pos rfl, if_pos (by simp)]
      simp
    · rw [dictGet_dictAppend, if_neg (by simp [hu]), if_neg (by simp [hu])]

/-- The per-item append loop does not touch keys of other assignments. -/
theorem dictGet_foldl_dictAppend_ne (l : List Submission) (aid : Nat)
    (m : List ((Nat × Nat) × List Submission)) (k : Nat × Nat) (h : k.2 ≠ aid) :
    dictGet (l.foldl (fun m s => dictAppend m (s.user_id, aid) s) m) k = dictGet m k := by
  induction l generalizing m with
  | nil => rfl
  | cons s rest ih =>
    simp only [List.foldl_cons]
    rw [ih, dictGet_dictAppend, if_neg]
    intro he
    exact h (by rw [← he])

/-! ## Exception-loop lemmas -/

theorem mapE_ok_iff {α β ε : Type} (f : α → Except ε β) (l : List α) (bs : List β) :
    mapE f l = .ok bs ↔ List.Forall₂ (fun a b => f a = .ok b) l bs := by
  induction l generalizing bs with
  | nil =>
    constructor
    · intro h
      cases bs with
      | nil => exact List.Forall₂.nil
      | cons b bs => simp [mapE] at h
    · intro h
      cases h
      rfl
  | cons a as ih =>
    constructor
    · intro h
      simp only [mapE] at h
      cases hf : f a with
      | error e => rw [hf] at h; cases h
      | ok b =>
        rw [hf] at h
        cases hm : mapE f as with
        | error e => rw [hm] at h; cases h
        | ok bs2 =>
          rw [hm] at h
          cases h
          exact List.Forall₂.cons hf ((ih bs2).mp hm)
    · intro h
      cases h with
      | cons hf hrest =>
        simp only [mapE]
        rw [hf, (ih _).mpr hrest]

theorem mapE_mem_ok {α β ε : Type} {f : α → Except ε β} {l : List α} {bs : List β}
    (h : mapE f l = .ok bs) {a : α} (ha : a ∈ l) : ∃ b ∈ bs, f a = .ok b := by
  induction l generalizing bs with
  | nil => cases ha
  | cons x xs ih =>
    rw [mapE_ok_iff] at h
    cases h with
    | cons hf hrest =>
      rcases List.mem_cons.mp ha with rfl | ha2
      · exact ⟨_, List.mem_cons_self _ _, hf⟩
      · rcases ih ((mapE_ok_iff _ _ _).mpr hrest) ha2 with ⟨b, hb, hfb⟩
        exact ⟨b, List.mem_cons_of_mem _ hb, hfb⟩

theorem mapE_ok_of_forall {α β ε : Type} (f : α → Except ε β) (l : List α)
    (h : ∀ a ∈ l, ∃ b, f a = .ok b) : ∃ bs, mapE f l = .ok bs := by
  induction l with
  | nil => exact ⟨[], rfl⟩
  | cons a as ih =>
    rcases h a (List.mem_cons_self _ _) with ⟨b, hb⟩
    rcases ih (fun x hx => h x (List.mem_cons_of_mem _ hx)) with ⟨bs, hbs⟩
    refine ⟨b :: bs, ?_⟩
    simp only [mapE]
    rw [hb, hbs]

theorem mapE_error_of_mem {α β ε : Type} {f : α → Except ε β} {l : List α} {a : α}
    (ha : a ∈ l) {e : ε} (he : f a = .error e) : ∃ e2, mapE f l = .error e2 := by
  induction l with
  | nil => cases ha
  | cons x xs ih =>
    rcases List.mem_cons.mp ha with rfl | ha2
    · exact ⟨e, by simp only [mapE]; rw [he]⟩
    · cases hf : f x with
      | error e3 => exact ⟨e3, by simp only [mapE]; rw [hf]⟩
      | ok b =>
        rcases ih ha2 with ⟨e2, he2⟩
        exact ⟨e2, by simp only [mapE]; rw [hf, he2]⟩

/-- The inner loop in terms of the per-assignment computation: the rows
are the emitted ones in order, the total is the sum of the positive-delta
contributions. -/
theorem foldE_assignStep_ok (byA : List (Nat × List Submission))
    (byS : List ((Nat × Nat) × List Submission)) (st : Student)
    (as : List Assignment) (l0 : List AssignmentResult) (t0 : Int)
    (l : List AssignmentResult) (t : Int) :
    foldE (assignStep byA byS st) (l0, t0) as = .ok (l, t) ↔
      ∃ os, mapE (processAssignment byA byS st) as = .ok os ∧
        l = l0 ++ os.reduceOption ∧ t = t0 + (os.reduceOption.map lateContrib).sum := by
  induction as generalizing l0 t0 with
  | nil =>
    constructor
    · intro h
      cases h
      exact ⟨[], rfl, by simp, by simp⟩
    · rintro ⟨os, hos, hl, ht⟩
      cases os with
      | nil =>
        simp only [List.reduceOption_nil, List.append_nil] at hl
        simp only [List.reduceOption_nil, List.map_nil, List.sum_nil, Int.add_zero] at ht
        rw [hl, ht]
        rfl
      | cons o os2 => simp [mapE] at hos
  | cons a rest ih =>
    constructor
    · intro h
      simp only [foldE, assignStep] at h
      cases hp : processAssignment byA byS st a with
      | error e => rw [hp] at h; cases h
      | ok o =>
        rw [hp] at h
        cases o with
        | none =>
          rcases (ih l0 t0).mp h with ⟨os, hos, hl, ht⟩
          refine ⟨none :: os, ?_, by simpa using hl, by simpa using ht⟩
          simp only [mapE]
          rw [hp, hos]
        | some r =>
          rcases (ih (l0 ++ [r]) (t0 + lateContrib r)).mp h with ⟨os, hos, hl, ht⟩
          refine ⟨some r :: os, ?_, ?_, ?_⟩
          · simp only [mapE]
            rw [hp, hos]
          · simpa [List.append_assoc] using hl
          · simp only [List.reduceOption_cons_of_some, List.map_cons, List.sum_cons]
            omega
    · rintro ⟨os, hos, hl, ht⟩
      simp only [mapE] at hos
      cases hp : processAssignment byA byS st a with
      | error e => rw [hp] at hos; cases hos
      | ok o =>
        rw [hp] at hos
        cases hm : mapE (processAssignment byA byS st) rest with
        | error e => rw [hm] at hos; cases hos
        | ok os2 =>
          rw [hm] at hos
          cases hos
          simp only [foldE, assignStep]
          rw [hp]
          cases o with
          | none =>
            exact (ih l0 t0).mpr ⟨os2, hm, by simpa using hl, by simpa using ht⟩
          | some r =>
            refine (ih (l0 ++ [r]) (t0 + lateContrib r)).mpr ⟨os2, hm, ?_, ?_⟩
            · simpa [List.append_assoc] using hl
            · simp only [List.reduceOption_cons_of_some, List.map_cons, List.sum_cons] at ht
              omega

/-! ## Maximum-timestamp lemmas -/

theorem maxTs_foldl_mem (l : List (Option String)) (acc : Option String) :
    l.foldl (fun acc t => if pyLeOptStr acc t then t else acc) acc = acc ∨
      l.foldl (fun acc t => if pyLeOptStr acc t then t else acc) acc ∈ l := by
  induction l generalizing acc with
  | nil => exact Or.inl rfl
  | cons t rest ih =>
    simp only [List.foldl_cons]
    by_cases h : pyLeOptStr acc t = true
    · rw [if_pos h]
      rcases ih t with h2 | h2
      · exact Or.inr (by rw [h2]; exact List.mem_cons_self _ _)
      · exact Or.inr (List.mem_cons_of_mem _ h2)
    · rw [if_neg h]
      rcases ih acc with h2 | h2
      · exact Or.inl h2
      · exact Or.inr (List.mem_cons_of_mem _ h2)

theorem maxTs_foldl_le (l : List (Option String)) (acc : Option String) :
    (∀ x ∈ l, pyLeOptStr x (l.foldl (fun acc t => if pyLeOptStr acc t then t else acc) acc) = true)
      ∧ pyLeOptStr acc (l.foldl (fun acc t => if pyLeOptStr acc t then t else acc) acc) = true := by
  induction l generalizing acc with
  | nil => exact ⟨fun x hx => absurd hx (List.not_mem_nil x), pyLeOptStr_refl acc⟩
  | cons t rest ih =>
    simp only [List.foldl_cons]
    by_cases h : pyLeOptStr acc t = true
    · rw [if_pos h]
      rcases ih t with ⟨h1, h2⟩
      refine ⟨?_, pyLeOptStr_trans h h2⟩
      intro x hx
      rcases List.mem_cons.mp hx with rfl | hx2
      · exact h2
      · exact h1 x hx2
    · rw [if_neg h]
      rcases ih acc with ⟨h1, h2⟩
      refine ⟨?_, h2⟩
      intro x hx
      rcases List.mem_cons.mp hx with rfl | hx2
      · rcases pyLeOptStr_total x acc with h3 | h3
        · exact pyLeOptStr_trans h3 h2
        · exact absurd h3 h
      · exact h1 x hx2

theorem maxTs_le (l : List (Option String)) (x : Option String) (hx : x ∈ l) :
    pyLeOptStr x (maxTs l) = true := (maxTs_foldl_le l none).1 x hx

theorem maxTs_mem (l : List (Option String)) : maxTs l = none ∨ maxTs l ∈ l := by
  rcases maxTs_foldl_mem l none with h | h
  · exact Or.inl h
  · exact Or.inr h

/-- Any member that dominates the whole list is the `maxTs`. -/
theorem maxTs_eq_of_mem_of_le (l : List (Option String)) (m : Option String) (hm : m ∈ l)
    (hle : ∀ x ∈ l, pyLeOptStr x m = true) : maxTs l = m := by
  have h1 : pyLeOptStr m (maxTs l) = true := maxTs_le l m hm
  have h2 : pyLeOptStr (maxTs l) m = true := by
    rcases maxTs_mem l with h | h
    · rw [h]; rfl
    · exact hle _ h
  exact pyLeOptStr_antisymm h2 h1

/-- In a list sorted by `pyLeOptStr`, every element is below the last. -/
theorem pairwise_le_getLast : ∀ (l : List (Option String)) (hne : l ≠ [])
    (_ : l.Pairwise fun a b => pyLeOptStr a b = true) (x : Option String), x ∈ l →
    pyLeOptStr x (l.getLast hne) = true := by
  intro l
  induction l with
  | nil => intro hne; cases hne rfl
  | cons a rest ih =>
    intro hne hp x hx
    cases rest with
    | nil =>
      rcases List.mem_singleton.mp hx with rfl
      simp only [List.getLast_singleton]
      exact pyLeOptStr_refl x
    | cons b rs =>
      rw [List.getLast_cons (by simp)]
      rcases List.mem_cons.mp hx with rfl | hx2
      · exact List.rel_of_pairwise_cons hp (List.getLast_mem (by simp))
      · exact ih (by simp) (List.pairwise_cons.mp hp).2 x hx2

/-- In a list sorted by the Python order, the last element is the maximum. -/
theorem getLast_eq_maxTs (l : List (Option String)) (hne : l ≠ [])
    (hp : l.Pairwise (fun a b => pyLeOptStr a b = true)) :
    l.getLast hne = maxTs l := by
  exact (maxTs_eq_of_mem_of_le l _ (List.getLast_mem hne)
    (pairwise_le_getLast l hne hp)).symm

/-! ## Characterization of the submission indexes -/

theorem groupStep_byA_ne (ids : List Nat) (acc : SubIndex) (item : SubItem) (k : Nat)
    (h : item.assignment_id ≠ k) :
    dictGet (groupStep ids acc item).byAssignment k = dictGet acc.byAssignment k := by
  unfold groupStep
  split
  · simp [dictGet, h]
  · rfl

theorem groupStep_byS_ne (ids : List Nat) (acc : SubIndex) (item : SubItem) (u k : Nat)
    (h : item.assignment_id ≠ k) :
    dictGet (groupStep ids acc item).byStudent (u, k) = dictGet acc.byStudent (u, k) := by
  unfold groupStep
  split
  · exact dictGet_foldl_dictAppend_ne _ _ _ _ (fun he => h he.symm)
  · rfl

theorem foldl_groupStep_byA_none (ids : List Nat) (items : List SubItem) (acc : SubIndex)
    (k : Nat) (h : ∀ item ∈ items, item.assignment_id ≠ k) :
    dictGet (items.foldl (groupStep ids) acc).byAssignment k = dictGet acc.byAssignment k := by
  induction items generalizing acc with
  | nil => rfl
  | cons item rest ih =>
    simp only [List.foldl_cons]
    rw [ih _ (fun x hx => h x (List.mem_cons_of_mem _ hx)),
      groupStep_byA_ne _ _ _ _ (h item (List.mem_cons_self _ _))]

theorem foldl_groupStep_byS_none (ids : List Nat) (items : List SubItem) (acc : SubIndex)
    (u k : Nat) (h : ∀ item ∈ items, item.assignment_id ≠ k) :
    dictGet (items.foldl (groupStep ids) acc).byStudent (u, k) =
      dictGet acc.byStudent (u, k) := by
  induction items generalizing acc with
  | nil => rfl
  | cons item rest ih =>
    simp only [List.foldl_cons]
    rw [ih _ (fun x hx => h x (List.mem_cons_of_mem _ hx)),
      groupStep_byS_ne _ _ _ _ _ (h item (List.mem_cons_self _ _))]

theorem foldl_groupStep_byA (ids : List Nat) (items : List SubItem) (acc : SubIndex) (k : Nat)
    (hnd : (items.map (fun it => it.assignment_id)).Nodup) :
    dictGet (items.foldl (groupStep ids) acc).byAssignment k =
      match items.find? (fun it => it.assignment_id == k) with
      | some item =>
        if ids.contains k then some (item.submissions.mergeSort subKeyLe)
        else dictGet acc.byAssignment k
      | none => dictGet acc.byAssignment k := by
  induction items generalizing acc with
  | nil => rfl
  | cons item rest ih =>
    simp only [List.map_cons, List.nodup_cons] at hnd
    simp only [List.foldl_cons]
    by_cases hk : item.assignment_id = k
    · rw [List.find?_cons_of_pos _ (by simp [hk])]
      have hrest : ∀ x ∈ rest, x.assignment_id ≠ k := by
        intro x hx he
        exact hnd.1 ((hk.trans he.symm) ▸ List.mem_map_of_mem (fun it => it.assignment_id) hx)
      rw [foldl_groupStep_byA_none _ _ _ _ hrest]
      subst hk
      unfold groupStep
      split
      · rename_i hc
        simp [dictGet, hc]
      · rename_i hc
        simp [hc]
    · rw [List.find?_cons_of_neg _ (by simp [hk])]
      rw [ih _ hnd.2]
      cases hfind : rest.find? (fun it => it.assignment_id == k) with
      | some item2 => simp only []; rw [groupStep_byA_ne _ _ _ _ hk]
      | none => simp only []; rw [groupStep_byA_ne _ _ _ _ hk]

theorem foldl_groupStep_byS (ids : List Nat) (items : List SubItem) (acc : SubIndex)
    (u k : Nat) (hnd : (items.map (fun it => it.assignment_id)).Nodup) :
    (dictGet (items.foldl (groupStep ids) acc).byStudent (u, k)).getD [] =
      match items.find? (fun it => it.assignment_id == k) with
      | some item =>
        if ids.contains k then
          (dictGet acc.byStudent (u, k)).getD [] ++
            (item.submissions.mergeSort subKeyLe).filter (fun s => s.user_id == u)
        else (dictGet acc.byStudent (u, k)).getD []
      | none => (dictGet acc.byStudent (u, k)).getD [] := by
  induction items generalizing acc with
  | nil => rfl
  | cons item rest ih =>
    simp only [List.map_cons, List.nodup_cons] at hnd
    simp only [List.foldl_cons]
    by_cases hk : item.assignment_id = k
    · rw [List.find?_cons_of_pos _ (by simp [hk])]
      have hrest : ∀ x ∈ rest, x.assignment_id ≠ k := by
        intro x hx he
        exact hnd.1 ((hk.trans he.symm) ▸ List.mem_map_of_mem (fun it => it.assignment_id) hx)
      rw [foldl_groupStep_byS_none _ _ _ _ _ hrest]
      subst hk
      unfold groupStep
      split
      · rw [dictGet_foldl_dictAppend]
      · rfl
    · rw [List.find?_cons_of_neg _ (by simp [hk])]
      rw [ih _ hnd.2]
      cases hfind : rest.find? (fun it => it.assignment_id == k) with
      | some item2 => simp only []; rw [groupStep_byS_ne _ _ _ _ _ hk]
      | none => simp only []; rw [groupStep_byS_ne _ _ _ _ _ hk]

theorem groupSubs_byAssignment (ids : List Nat) (items : List SubItem) (k : Nat)
    (hnd : (items.map (fun it => it.assignment_id)).Nodup) (hk : ids.contains k = true) :
    dictGet (groupSubs ids items).byAssignment k =
      (items.find? (fun it => it.assignment_id == k)).map
        (fun item => item.submissions.mergeSort subKeyLe) := by
  unfold groupSubs
  rw [foldl_groupStep_byA _ _ _ _ hnd]
  cases items.find? (fun it => it.assignment_id == k) with
  | some item =>
    simp only [Option.map_some']
    rw [if_pos hk]
  | none => rfl

theorem groupSubs_byStudent (ids : List Nat) (items : List SubItem) (u k : Nat)
    (hnd : (items.map (fun it => it.assignment_id)).Nodup) (hk : ids.contains k = true) :
    (dictGet (groupSubs ids items).byStudent (u, k)).getD [] =
      match items.find? (fun it => it.assignment_id == k) with
      | some item => (item.submissions.mergeSort subKeyLe).filter (fun s => s.user_id == u)
      | none => [] := by
  unfold groupSubs
  rw [foldl_groupStep_byS _ _ _ _ _ hnd]
  cases items.find? (fun it => it.assignment_id == k) with
  | some item =>
    simp only []
    rw [if_pos hk]
    simp [dictGet]
  | none => rfl

/-- Under unique submission keys, the total submission list of an
assignment is exactly the list of its (unique) `data['submissions']`
entry. -/
theorem allSubsFor_eq_find (items : List SubItem) (k : Nat)
    (hnd : (items.map (fun it => it.assignment_id)).Nodup) :
    ((items.filter (fun it => it.assignment_id == k)).map (fun it => it.submissions)).flatten =
      match items.find? (fun it => it.assignment_id == k) with
      | some item => item.submissions
      | none => [] := by
  induction items with
  | nil => rfl
  | cons item rest ih =>
    simp only [List.map_cons, List.nodup_cons] at hnd
    simp only [List.filter_cons]
    by_cases hk : item.assignment_id = k
    · rw [List.find?_cons_of_pos _ (by simp [hk]), if_pos (by simp [hk])]
      have hrest : rest.filter (fun it => it.assignment_id == k) = [] := by
        rw [List.filter_eq_nil_iff]
        intro x hx
        simp only [beq_iff_eq]
        intro he
        exact hnd.1 ((hk.trans he.symm) ▸ List.mem_map_of_mem (fun it => it.assignment_id) hx)
      simp [hk, hrest]
    · rw [List.find?_cons_of_neg _ (by simp [hk])]
      simp only [beq_iff_eq, hk, if_false]
      exact ih hnd.2

/-! ## Characterization of the per-assignment computation -/

/-- A successful due-date parse yields the parsed instant and its display
string. -/
theorem dueInfo_ok (a : Assignment) (p : Option Int × String)
    (htruthy : pyStrTruthy (a.due_at.getD "") = true)
    (h : dueInfo a = .ok p) :
    ∃ dt, parseTs (a.due_at.getD "") = some dt ∧ p = (some dt, displayEST dt) := by
  unfold dueInfo at h
  rw [if_pos htruthy] at h
  split at h
  · rename_i t hp
    cases h
    exact ⟨t, hp, rfl⟩
  · cases h

/-- Shape of the submission-side fields: the timestamp is that of the last
submission (or the initial `''` when there is none), and the parsed date
and display string are derived from it. -/
theorem subInfo_ok (sas : List Submission) (q : Option String × Option Int × String)
    (h : subInfo sas = .ok q) :
    q.1 = (match sas.getLast? with
      | none => some ""
      | some x => x.submitted_at) ∧
    (pyOptStrTruthy q.1 = false → q.2.1 = none ∧ q.2.2 = "") ∧
    (pyOptStrTruthy q.1 = true →
      ∃ ts, parseTs (q.1.getD "") = some ts ∧ q.2.1 = some ts ∧ q.2.2 = displayEST ts) := by
  unfold subInfo at h
  split at h
  · rename_i hl
    cases h
    refine ⟨rfl, fun _ => ⟨rfl, rfl⟩, fun hc => ?_⟩
    simp [pyOptStrTruthy, pyStrTruthy] at hc
  · rename_i x hl
    split at h
    · rename_i ht
      split at h
      · rename_i ts hps
        cases h
        exact ⟨rfl, fun hc => by simp [ht] at hc, fun _ => ⟨ts, hps, rfl, rfl⟩⟩
      · cases h
    · rename_i ht
      cases h
      simp only [Bool.not_eq_true] at ht
      exact ⟨rfl, fun _ => ⟨rfl, rfl⟩, fun hc => by simp [ht] at hc⟩

/-- Shape of a successfully built row: its identity fields come from the
assignment, its submission timestamp is that of the last element of the
student's (sorted) submission list, and its delta and display strings are
computed from the parses of its own timestamp fields. -/
theorem buildRow_ok (a : Assignment) (sas : List Submission) (r : AssignmentResult)
    (htruthy : pyStrTruthy (a.due_at.getD "") = true)
    (h : buildRow a sas = .ok r) :
    r.assignment_id = a.id ∧ r.assignment_name = a.name ∧
    r.due_date_iso = a.due_at.getD "" ∧
    r.submission_date_iso = (match sas.getLast? with
      | none => some ""
      | some x => x.submitted_at) ∧
    rowDelta r := by
  unfold buildRow at h
  split at h
  · cases h
  · rename_i p due_date due_display hdi
    split at h
    · cases h
    · rename_i q sub_iso sub_date sub_display hsi
      cases h
      rcases dueInfo_ok a _ htruthy hdi with ⟨dt, hp, hpair⟩
      rcases Prod.mk.injEq .. ▸ hpair with ⟨hdd, hdisp⟩
      rcases subInfo_ok sas _ hsi with ⟨hiso, hfalse, htrue⟩
      subst hdd
      subst hdisp
      refine ⟨rfl, rfl, rfl, hiso, dt, hp, rfl, ?_, ?_⟩
      · intro hc
        rcases hfalse hc with ⟨h1, h2⟩
        simp only [] at h1 h2 ⊢
        rw [h1, h2]
        exact ⟨rfl, rfl⟩
      · intro hc
        rcases htrue hc with ⟨ts, hps, h1, h2⟩
        simp only [] at h1 h2 ⊢
        rw [h1, h2]
        exact ⟨ts, hps, rfl, rfl⟩

/-- `processAssignment` once the submissions-index lookup succeeds. -/
theorem processAssignment_eq_some (byA : List (Nat × List Submission))
    (byS : List ((Nat × Nat) × List Submission)) (st : Student) (a : Assignment)
    (subs : List Submission) (hd : dictGet byA a.id = some subs) :
    processAssignment byA byS st a =
      if subs.length == 0 || !pyOptStrTruthy a.due_at then .ok none
      else match buildRow a ((dictGet byS (st.id, a.id)).getD []) with
        | .error e => .error e
        | .ok r => .ok (some r) := by
  unfold processAssignment
  rw [hd]

/-- A missing submissions entry raises `KeyError` (line 131). -/
theorem processAssignment_keyError (byA : List (Nat × List Submission))
    (byS : List ((Nat × Nat) × List Submission)) (st : Student) (a : Assignment)
    (h : dictGet byA a.id = none) :
    processAssignment byA byS st a = .error (.keyError a.id) := by
  unfold processAssignment
  rw [h]

/-- The per-assignment computation yields `none` exactly on the global
skip condition of line 135. -/
theorem processAssignment_ok_none_iff (byA : List (Nat × List Submission))
    (byS : List ((Nat × Nat) × List Submission)) (st : Student) (a : Assignment) :
    processAssignment byA byS st a = .ok none ↔
      ∃ subs, dictGet byA a.id = some subs ∧
        (subs.length = 0 ∨ pyOptStrTruthy a.due_at = false) := by
  cases hd : dictGet byA a.id with
  | none =>
    rw [processAssignment_keyError byA byS st a hd]
    constructor
    · intro hh; cases hh
    · rintro ⟨subs, hs, _⟩; cases hs
  | some subs =>
    rw [processAssignment_eq_some byA byS st a subs hd]
    by_cases hc : (subs.length == 0 || !pyOptStrTruthy a.due_at) = true
    · rw [if_pos hc]
      simp only [Bool.or_eq_true, beq_iff_eq, Bool.not_eq_true'] at hc
      constructor
      · intro _
        exact ⟨subs, rfl, hc⟩
      · intro _; rfl
    · rw [if_neg hc]
      simp only [Bool.or_eq_true, beq_iff_eq, Bool.not_eq_true'] at hc
      constructor
      · intro hh
        split at hh
        · cases hh
        · cases hh
      · rintro ⟨subs2, hs2, hcond⟩
        obtain rfl := Option.some.inj hs2
        exact absurd hcond (by tauto)

/-- The per-assignment computation yields a row exactly when the skip
condition fails and the row builds. -/
theorem processAssignment_ok_some_iff (byA : List (Nat × List Submission))
    (byS : List ((Nat × Nat) × List Submission)) (st : Student) (a : Assignment)
    (r : AssignmentResult) :
    processAssignment byA byS st a = .ok (some r) ↔
      ∃ subs, dictGet byA a.id = some subs ∧
        ¬(subs.length = 0 ∨ pyOptStrTruthy a.due_at = false) ∧
        buildRow a ((dictGet byS (st.id, a.id)).getD []) = .ok r := by
  cases hd : dictGet byA a.id with
  | none =>
    rw [processAssignment_keyError byA byS st a hd]
    constructor
    · intro hh; cases hh
    · rintro ⟨subs, hs, _⟩; cases hs
  | some subs =>
    rw [processAssignment_eq_some byA byS st a subs hd]
    by_cases hc : (subs.length == 0 || !pyOptStrTruthy a.due_at) = true
    · rw [if_pos hc]
      simp only [Bool.or_eq_true, beq_iff_eq, Bool.not_eq_true'] at hc
      constructor
      · intro hh; cases hh
      · rintro ⟨subs2, hs2, hcond, _⟩
        obtain rfl := Option.some.inj hs2
        exact absurd hc hcond
    · rw [if_neg hc]
      simp only [Bool.or_eq_true, beq_iff_eq, Bool.not_eq_true'] at hc
      constructor
      · intro hh
        split at hh
        · cases hh
        · rename_i r2 hb
          cases hh
          exact ⟨subs, rfl, by tauto, hb⟩
      · rintro ⟨subs2, hs2, hcond, hb⟩
        obtain rfl := Option.some.inj hs2
        rw [hb]

/-- The per-assignment computation reads the student only through its id. -/
theorem processAssignment_id_only (byA : List (Nat × List Submission))
    (byS : List ((Nat × Nat) × List Submission)) (st st2 : Student) (a : Assignment)
    (h : st.id = st2.id) :
    processAssignment byA byS st a = processAssignment byA byS st2 a := by
  unfold processAssignment
  rw [h]

/-- `studentReport` in terms of the per-assignment outputs. -/
theorem studentReport_ok_iff (field : Student → Option String)
    (byA : List (Nat × List Submission)) (byS : List ((Nat × Nat) × List Submission))
    (sa : List Assignment) (st : Student) (r : StudentReport) :
    studentReport field byA byS sa st = .ok r ↔
      ∃ os, mapE (processAssignment byA byS st) sa = .ok os ∧
        r = { student_id := st.id
              student_name := field st
              assignments := os.reduceOption
              total_lateness_seconds := (os.reduceOption.map lateContrib).sum
              total_lateness_hours := ((os.reduceOption.map lateContrib).sum).tdiv 3600 } := by
  unfold studentReport
  constructor
  · intro h
    cases hf : foldE (assignStep byA byS st) ([], 0) sa with
    | error e => rw [hf] at h; cases h
    | ok p =>
      rw [hf] at h
      rcases (foldE_assignStep_ok byA byS st sa [] 0 p.1 p.2).mp (by rw [← hf]) with
        ⟨os, hos, hl, ht⟩
      cases h
      refine ⟨os, hos, ?_⟩
      simp only [List.nil_append] at hl
      simp only [Int.zero_add] at ht
      rw [hl, ht]
  · rintro ⟨os, hos, rfl⟩
    have hf := (foldE_assignStep_ok byA byS st sa [] 0 os.reduceOption
      ((os.reduceOption.map lateContrib).sum)).mpr ⟨os, hos, by simp, by simp⟩
    rw [hf]

/-- `process` unfolded to its loop over sorted students. -/
theorem process_def (data : InputData) (pol : Option String) :
    process data pol =
      mapE (studentReport (studentField pol)
        (groupSubs (data.assignments.map (fun a => a.id)) data.submissions).byAssignment
        (groupSubs (data.assignments.map (fun a => a.id)) data.submissions).byStudent
        (data.assignments.mergeSort assignLe))
        (data.students.mergeSort
          (fun s t => pyLeOptStr (studentField pol s) (studentField pol t))) := rfl

/-! ## Helper lemmas for the claims -/

/-- With unique keys, `find?` at a member's key returns that member. -/
theorem find?_key_eq_self {α : Type} [DecidableEq α] (key : α → Nat) (l : List α) (a : α)
    (hnd : (l.map key).Nodup) (ha : a ∈ l) :
    l.find? (fun x => key x == key a) = some a := by
  cases hf : l.find? (fun x => key x == key a) with
  | none =>
    rw [List.find?_eq_none] at hf
    exact absurd (by simp) (hf a ha)
  | some b =>
    have hb : b ∈ l := List.mem_of_find?_eq_some hf
    have hid : key b = key a := by simpa using List.find?_some hf
    rw [List.inj_on_of_nodup_map hnd hb ha hid]

/-- For equal user and assignment ids the tuple comparison of line 113
reduces to the timestamp comparison. -/
theorem subKeyLe_eq_ids {s t : Submission} (hu : s.user_id = t.user_id)
    (ha : s.assignment_id = t.assignment_id) :
    subKeyLe s t = pyLeOptStr s.submitted_at t.submitted_at := by
  unfold subKeyLe
  rw [if_pos hu, if_pos ha]

/-- One student's slice of the sorted submission list of one assignment is
sorted by submission timestamp. -/
theorem sorted_filter_user (subs : List Submission) (aid u : Nat)
    (hwf : ∀ s ∈ subs, s.assignment_id = aid) :
    ((subs.mergeSort subKeyLe).filter (fun s => s.user_id == u)).Pairwise
      (fun s t => pyLeOptStr s.submitted_at t.submitted_at = true) := by
  have hsorted : (subs.mergeSort subKeyLe).Pairwise (fun a b => subKeyLe a b = true) :=
    List.sorted_mergeSort subKeyLe_trans subKeyLe_total subs
  have hfil : ((subs.mergeSort subKeyLe).filter (fun s => s.user_id == u)).Pairwise
      (fun a b => subKeyLe a b = true) :=
    List.Pairwise.sublist (List.filter_sublist _) hsorted
  refine List.Pairwise.imp_of_mem ?_ hfil
  intro a b hma hmb hr
  have ha2 := List.mem_filter.mp hma
  have hb2 := List.mem_filter.mp hmb
  have hu : a.user_id = b.user_id := by
    have h1 : a.user_id = u := by simpa using ha2.2
    have h2 : b.user_id = u := by simpa using hb2.2
    rw [h1, h2]
  have haid : a.assignment_id = b.assignment_id := by
    rw [hwf a (List.mem_mergeSort.mp ha2.1), hwf b (List.mem_mergeSort.mp hb2.1)]
  rw [← subKeyLe_eq_ids hu haid]
  exact hr

theorem pyLeOptStr_none_right {x : Option String} (h : pyLeOptStr x none = true) : x = none := by
  cases x with
  | none => rfl
  | some s => cases h

theorem maxTs_perm {l1 l2 : List (Option String)} (h : l1.Perm l2) : maxTs l1 = maxTs l2 := by
  rcases maxTs_mem l1 with h1 | h1
  · rcases maxTs_mem l2 with h2 | h2
    · rw [h1, h2]
    · have hle := maxTs_le l1 _ (h.mem_iff.mpr h2)
      rw [h1] at hle
      rw [h1, pyLeOptStr_none_right hle]
  · exact (maxTs_eq_of_mem_of_le l2 _ (h.mem_iff.mp h1)
      (fun x hx => maxTs_le l1 x (h.mem_iff.mpr hx))).symm

/-- The last element of the student's sorted slice carries the maximal
submission timestamp of that student's submissions in the raw data. -/
theorem mergeSort_filter_last_eq_maxTs (subs : List Submission) (aid u : Nat)
    (hwf : ∀ s ∈ subs, s.assignment_id = aid)
    (hne : subs.filter (fun s => s.user_id == u) ≠ []) :
    ∃ x, ((subs.mergeSort subKeyLe).filter (fun s => s.user_id == u)).getLast? = some x ∧
      x.submitted_at =
        maxTs ((subs.filter (fun s => s.user_id == u)).map (fun s => s.submitted_at)) := by
  have hperm : ((subs.mergeSort subKeyLe).filter (fun s => s.user_id == u)).Perm
      (subs.filter (fun s => s.user_id == u)) :=
    (List.mergeSort_perm subs subKeyLe).filter _
  have hslne : (subs.mergeSort subKeyLe).filter (fun s => s.user_id == u) ≠ [] := by
    intro h0
    rw [h0] at hperm
    exact hne hperm.nil_eq.symm
  refine ⟨((subs.mergeSort subKeyLe).filter (fun s => s.user_id == u)).getLast hslne,
    List.getLast?_eq_getLast _ hslne, ?_⟩
  have hpair : (((subs.mergeSort subKeyLe).filter (fun s => s.user_id == u)).map
      (fun s => s.submitted_at)).Pairwise (fun a b => pyLeOptStr a b = true) :=
    List.pairwise_map.mpr (sorted_filter_user subs aid u hwf)
  have hmapne : (((subs.mergeSort subKeyLe).filter (fun s => s.user_id == u)).map
      (fun s => s.submitted_at)) ≠ [] := by
    simpa using hslne
  have hlast := getLast_eq_maxTs _ hmapne hpair
  rw [List.getLast_map] at hlast
  rw [← maxTs_perm (hperm.map (fun s => s.submitted_at))]
  exact hlast

/-- The per-row total contribution sums to the sum of the positive deltas. -/
theorem sum_lateContrib_eq (l : List AssignmentResult) :
    (l.map lateContrib).sum =
      ((l.filterMap (fun r => r.time_delta_seconds)).filter (fun d => decide (0 < d))).sum := by
  induction l with
  | nil => rfl
  | cons r rest ih =>
    simp only [List.map_cons, List.sum_cons, List.filterMap_cons]
    cases hd : r.time_delta_seconds with
    | none =>
      simp only [lateContrib, hd]
      rw [ih]
      omega
    | some d =>
      by_cases h : 0 < d
      · simp only [lateContrib, hd, if_pos h]
        rw [List.filter_cons, if_pos (by simpa using h), List.sum_cons, ih]
      · simp only [lateContrib, hd, if_neg h]
        rw [List.filter_cons, if_neg (by simpa using h), ih]
        omega

theorem sum_lateContrib_nonneg (l : List AssignmentResult) :
    0 ≤ (l.map lateContrib).sum := by
  refine List.sum_nonneg ?_
  intro x hx
  rcases List.mem_map.mp hx with ⟨r, _, rfl⟩
  unfold lateContrib
  cases r.time_delta_seconds with
  | none => exact le_refl 0
  | some d =>
    show (0 : Int) ≤ if 0 < d then d else 0
    by_cases h : 0 < d
    · rw [if_pos h]; omega
    · rw [if_neg h]

/-- Stable sorting does not move the elements that satisfy `p` when they
are mutually `le`-related. -/
theorem filter_mergeSort_of_const {α : Type} (le : α → α → Bool)
    (htrans : ∀ (a b c : α), le a b = true → le b c = true → le a c = true)
    (htotal : ∀ (a b : α), (le a b || le b a) = true)
    (p : α → Bool) (l : List α)
    (hconst : ∀ a ∈ l, ∀ b ∈ l, p a = true → p b = true → le a b = true) :
    (l.mergeSort le).filter p = l.filter p := by
  have hpair : (l.filter p).Pairwise (fun a b => le a b = true) := by
    rw [List.pairwise_iff_forall_sublist]
    intro a b hsub
    have hma : a ∈ l.filter p := hsub.subset (by simp)
    have hmb : b ∈ l.filter p := hsub.subset (by simp)
    exact hconst a (List.mem_of_mem_filter hma) b (List.mem_of_mem_filter hmb)
      (List.of_mem_filter hma) (List.of_mem_filter hmb)
  have hsub2 : List.Sublist (l.filter p) (l.mergeSort le) :=
    List.sublist_mergeSort htrans htotal hpair (List.filter_sublist l)
  have hsub3 : List.Sublist (l.filter p) ((l.mergeSort le).filter p) := by
    have := hsub2.filter p
    rwa [List.filter_eq_self.mpr (fun a ha => List.of_mem_filter ha)] at this
  have hlen : ((l.mergeSort le).filter p).length = (l.filter p).length :=
    (((List.mergeSort_perm l le).filter p).length_eq)
  exact (hsub3.eq_of_length hlen.symm).symm

/-! ## Process-level decomposition -/

theorem process_eq (data : InputData) (pol : Option String) :
    process data pol =
      mapE (studentReport (studentField pol) (theByA data) (theByS data)
        (sortedAssignments data)) (sortedStudents pol data) := rfl

theorem forall₂_mem_right {α β : Type} {R : α → β → Prop} {l1 : List α} {l2 : List β}
    (h : List.Forall₂ R l1 l2) {b : β} (hb : b ∈ l2) : ∃ a ∈ l1, R a b := by
  induction h with
  | nil => cases hb
  | cons hr hrest ih =>
    rcases List.mem_cons.mp hb with rfl | hb2
    · exact ⟨_, List.mem_cons_self _ _, hr⟩
    · rcases ih hb2 with ⟨a, ha, hra⟩
      exact ⟨a, List.mem_cons_of_mem _ ha, hra⟩

theorem process_ok_forall₂ {data : InputData} {pol : Option String} {rs : List StudentReport}
    (h : process data pol = .ok rs) :
    List.Forall₂ (fun s r => studentReport (studentField pol) (theByA data) (theByS data)
      (sortedAssignments data) s = .ok r) (sortedStudents pol data) rs :=
  (mapE_ok_iff _ _ _).mp (by rw [← process_eq]; exact h)

theorem pyOptStrTruthy_getD {x : Option String} (h : pyOptStrTruthy x = true) :
    pyStrTruthy (x.getD "") = true := by
  cases x with
  | none => cases h
  | some s => exact h

/-- Every report of a successful run belongs to a student and carries that
student's name field and the totals computed from its own rows. -/
theorem process_report_shape {data : InputData} {pol : Option String} {rs : List StudentReport}
    (h : process data pol = .ok rs) {r : StudentReport} (hr : r ∈ rs) :
    ∃ st ∈ data.students, r.student_id = st.id ∧ r.student_name = studentField pol st ∧
      r.total_lateness_seconds = (r.assignments.map lateContrib).sum ∧
      r.total_lateness_hours = (r.assignments.map lateContrib).sum.tdiv 3600 := by
  rcases forall₂_mem_right (process_ok_forall₂ h) hr with ⟨st, hst, hrep⟩
  rcases (studentReport_ok_iff _ _ _ _ _ _).mp hrep with ⟨os, hos, rfl⟩
  exact ⟨st, List.mem_mergeSort.mp hst, rfl, rfl, rfl, rfl⟩

/-- Every row of a successful run comes from a non-skipped assignment and
has the shape `buildRow` gives it. -/
theorem process_row_shape {data : InputData} {pol : Option String} {rs : List StudentReport}
    (h : process data pol = .ok rs) {r : StudentReport} (hr : r ∈ rs)
    {ar : AssignmentResult} (har : ar ∈ r.assignments) :
    ∃ a ∈ data.assignments, ar.assignment_id = a.id ∧ ar.assignment_name = a.name ∧
      ar.due_date_iso = a.due_at.getD "" ∧ pyOptStrTruthy a.due_at = true ∧
      rowDelta ar ∧
      (∃ subs, dictGet (theByA data) a.id = some subs ∧ subs.length ≠ 0) ∧
      ar.submission_date_iso =
        (match (((dictGet (theByS data) (r.student_id, a.id)).getD []).getLast?) with
          | none => some ""
          | some x => x.submitted_at) := by
  rcases forall₂_mem_right (process_ok_forall₂ h) hr with ⟨st, hst, hrep⟩
  rcases (studentReport_ok_iff _ _ _ _ _ _).mp hrep with ⟨os, hos, rfl⟩
  simp only [] at har
  have hsome : some ar ∈ os := List.reduceOption_mem_iff.mp har
  rcases forall₂_mem_right ((mapE_ok_iff _ _ _).mp hos) hsome with ⟨a, ha, hpa⟩
  rcases (processAssignment_ok_some_iff _ _ _ _ _).mp hpa with ⟨subs, hd, hcond, hb⟩
  have htruthy : pyOptStrTruthy a.due_at = true := by
    cases hft : pyOptStrTruthy a.due_at with
    | false => exact absurd (Or.inr hft) hcond
    | true => rfl

  rcases buildRow_ok a _ ar (pyOptStrTruthy_getD htruthy) hb with ⟨h1, h2, h3, h4, h5⟩
  refine ⟨a, List.mem_mergeSort.mp ha, h1, h2, h3, htruthy, h5, ⟨subs, hd, ?_⟩, h4⟩
  intro h0
  exact hcond (Or.inl h0)

/-! ## The structural sort agrees with `mergeSort` -/

theorem orderedInsertB_append {α : Type} (le : α → α → Bool) (a : α) (l₁ l₂ : List α)
    (h1 : ∀ b ∈ l₁, le a b = false)
    (h2 : ∀ c, l₂.head? = some c → le a c = true) :
    orderedInsertB le a (l₁ ++ l₂) = l₁ ++ a :: l₂ := by
  induction l₁ with
  | nil =>
    cases l₂ with
    | nil => rfl
    | cons c rest =>
      simp only [List.nil_append, orderedInsertB]
      rw [if_pos (h2 c rfl)]
  | cons b l₁ ih =>
    simp only [List.cons_append, orderedInsertB]
    rw [if_neg (by simp [h1 b (List.mem_cons_self _ _)])]
    exact congrArg (fun x => b :: x) (ih (fun x hx => h1 x (List.mem_cons_of_mem _ hx)))

theorem mergeSort_eq_insertionSortB {α : Type} (le : α → α → Bool)
    (htrans : ∀ (a b c : α), le a b = true → le b c = true → le a c = true)
    (htotal : ∀ (a b : α), (le a b || le b a) = true) :
    ∀ l : List α, l.mergeSort le = insertionSortB le l := by
  intro l
  induction l with
  | nil => simp [insertionSortB]
  | cons a l ih =>
    obtain ⟨l₁, l₂, h1, h2, h3⟩ := List.mergeSort_cons htrans htotal a l
    simp only [insertionSortB]
    rw [← ih, h2, h1]
    refine (orderedInsertB_append le a l₁ l₂ ?_ ?_).symm
    · intro b hb
      have := h3 b hb
      simpa using this
    · intro c hc
      have hs := List.sorted_mergeSort htrans htotal (a :: l)
      rw [h1] at hs
      have hsub : List.Sublist (a :: l₂) (l₁ ++ a :: l₂) := List.sublist_append_right _ _
      have hp := List.Pairwise.sublist hsub hs
      cases l₂ with
      | nil => cases hc
      | cons d rest =>
        have hd : d = c := by simpa using hc
        subst hd
        exact List.rel_of_pairwise_cons hp (List.mem_cons_self _ _)

theorem groupStep_eq_groupStepE (ids : List Nat) (acc : SubIndex) (item : SubItem) :
    groupStep ids acc item = groupStepE ids acc item := by
  unfold groupStep groupStepE
  rw [mergeSort_eq_insertionSortB subKeyLe subKeyLe_trans subKeyLe_total]

theorem process_eq_processEval (data : InputData) (pol : Option String) :
    process data pol = processEval data pol := by
  rw [process_eq]
  unfold processEval theByA theByS sortedAssignments sortedStudents groupSubs groupSubsE
  rw [mergeSort_eq_insertionSortB assignLe assignLe_trans assignLe_total]
  rw [mergeSort_eq_insertionSortB
    (fun s t => pyLeOptStr (studentField pol s) (studentField pol t))
    (fun a b c h1 h2 => pyLeOptStr_trans h1 h2)
    (fun a b => pyLeOptStr_total_bool _ _)]
  rw [show groupStep (data.assignments.map (fun a => a.id)) =
      groupStepE (data.assignments.map (fun a => a.id)) from
    funext (fun acc => funext (fun item => groupStep_eq_groupStepE _ acc item))]

/-! ## Skip condition versus the global data -/

theorem theByA_char (data : InputData)
    (hS : (data.submissions.map (fun it => it.assignment_id)).Nodup)
    {a : Assignment} (ha : a ∈ data.assignments) :
    dictGet (theByA data) a.id =
      (data.submissions.find? (fun it => it.assignment_id == a.id)).map
        (fun item => item.submissions.mergeSort subKeyLe) := by
  unfold theByA
  exact groupSubs_byAssignment _ _ _ hS
    (by simpa using List.mem_map_of_mem (fun x => x.id) ha)

theorem theByS_char (data : InputData)
    (hS : (data.submissions.map (fun it => it.assignment_id)).Nodup)
    {a : Assignment} (ha : a ∈ data.assignments) (u : Nat) :
    (dictGet (theByS data) (u, a.id)).getD [] =
      match data.submissions.find? (fun it => it.assignment_id == a.id) with
      | some item => (item.submissions.mergeSort subKeyLe).filter (fun s => s.user_id == u)
      | none => [] := by
  unfold theByS
  exact groupSubs_byStudent _ _ _ _ hS
    (by simpa using List.mem_map_of_mem (fun x => x.id) ha)

theorem allSubsFor_char (data : InputData)
    (hS : (data.submissions.map (fun it => it.assignment_id)).Nodup) (aid : Nat) :
    allSubsFor data aid =
      match data.submissions.find? (fun it => it.assignment_id == aid) with
      | some item => item.submissions
      | none => [] :=
  allSubsFor_eq_find data.submissions aid hS

/-- `buildRow` stamps the assignment's id on the row unconditionally. -/
theorem buildRow_id {a : Assignment} {sas : List Submission} {r : AssignmentResult}
    (h : buildRow a sas = .ok r) : r.assignment_id = a.id := by
  unfold buildRow at h
  split at h
  · cases h
  · split at h
    · cases h
    · cases h
      rfl

theorem processAssignment_some_id {byA : List (Nat × List Submission)}
    {byS : List ((Nat × Nat) × List Submission)} {st : Student} {a : Assignment}
    {r : AssignmentResult} (h : processAssignment byA byS st a = .ok (some r)) :
    r.assignment_id = a.id := by
  rcases (processAssignment_ok_some_iff _ _ _ _ _).mp h with ⟨subs, _, _, hb⟩
  exact buildRow_id hb

/-- On a covered assignment of the input, the per-assignment computation
emits no row exactly when the global skip condition holds. -/
theorem processAssignment_none_iff_skipped {data : InputData} {st : Student} {a : Assignment}
    {o : Option AssignmentResult}
    (hS : (data.submissions.map (fun it => it.assignment_id)).Nodup)
    (ha : a ∈ data.assignments)
    (h : processAssignment (theByA data) (theByS data) st a = .ok o) :
    o = none ↔ skippedGlobal data a = true := by
  have hbyA := theByA_char data hS ha
  have hall := allSubsFor_char data hS a.id
  constructor
  · rintro rfl
    rcases (processAssignment_ok_none_iff _ _ _ _).mp h with ⟨subs, hd, hcond⟩
    rw [hbyA] at hd
    unfold skippedGlobal hasNoDue
    cases hf : data.submissions.find? (fun it => it.assignment_id == a.id) with
    | none => rw [hf] at hd; cases hd
    | some item =>
      rw [hf] at hd
      simp only [Option.map_some'] at hd
      obtain rfl := Option.some.inj hd
      have hall2 : allSubsFor data a.id = item.submissions := by rw [hall, hf]
      rcases hcond with hlen | hfalsy
      · have hsubs : item.submissions = [] := by
          rw [← List.length_eq_zero]
          simpa using hlen
        rw [hall2, hsubs]
        rfl
      · rw [hfalsy]
        simp
  · intro hskip
    cases o with
    | none => rfl
    | some ar =>
      exfalso
      rcases (processAssignment_ok_some_iff _ _ _ _ _).mp h with ⟨subs, hd, hcond, _⟩
      rw [hbyA] at hd
      cases hf : data.submissions.find? (fun it => it.assignment_id == a.id) with
      | none => rw [hf] at hd; cases hd
      | some item =>
        rw [hf] at hd
        simp only [Option.map_some'] at hd
        obtain rfl := Option.some.inj hd
        have hall2 : allSubsFor data a.id = item.submissions := by rw [hall, hf]
        unfold skippedGlobal hasNoDue at hskip
        rw [hall2] at hskip
        rcases Bool.or_eq_true_iff.mp hskip with hemp | hdue
        · refine hcond (Or.inl ?_)
          have : item.submissions = [] := by simpa [List.isEmpty_iff] using hemp
          rw [this]
          simp
        · exact hcond (Or.inr (by simpa using hdue))

theorem mapE_congr {α β ε : Type} {f g : α → Except ε β} (l : List α)
    (h : ∀ a ∈ l, f a = g a) : mapE f l = mapE g l := by
  induction l with
  | nil => rfl
  | cons a as ih =>
    simp only [mapE]
    rw [h a (List.mem_cons_self _ _), ih (fun x hx => h x (List.mem_cons_of_mem _ hx))]

theorem foldE_assignStep_error (byA : List (Nat × List Submission))
    (byS : List ((Nat × Nat) × List Submission)) (st : Student)
    (as : List Assignment) (acc : List AssignmentResult × Int) {a : Assignment}
    (ha : a ∈ as) (he : ∃ e0, processAssignment byA byS st a = .error e0) :
    ∃ e, foldE (assignStep byA byS st) acc as = .error e := by
  induction as generalizing acc with
  | nil => cases ha
  | cons x rest ih =>
    rcases List.mem_cons.mp ha with rfl | ha2
    · rcases he with ⟨e0, he0⟩
      refine ⟨e0, ?_⟩
      simp only [foldE, assignStep]
      rw [he0]
    · cases hx : processAssignment byA byS st x with
      | error e1 =>
        refine ⟨e1, ?_⟩
        simp only [foldE, assignStep]
        rw [hx]
      | ok o =>
        cases o with
        | none =>
          rcases ih acc ha2 with ⟨e, he2⟩
          refine ⟨e, ?_⟩
          simp only [foldE, assignStep]
          rw [hx]
          exact he2
        | some r =>
          rcases ih (acc.1 ++ [r], acc.2 + lateContrib r) ha2 with ⟨e, he2⟩
          refine ⟨e, ?_⟩
          simp only [foldE, assignStep]
          rw [hx]
          exact he2

/-! ## Claims -/

/-- C6: Determinism and purity — `process` is a pure function of its
inputs: two invocations on identical data and identifier policy produce
identical output.  The embedding is a total function; by inspection the
source reads nothing but its arguments and module-level timezone
constants, so purity holds and determinism is function congruence. -/
theorem c6_process_pure (d1 d2 : InputData) (p1 p2 : Option String)
    (h1 : d1 = d2) (h2 : p1 = p2) : process d1 p1 = process d2 p2 := by
  rw [h1, h2]

/-- Witness for C6 at a concrete input. -/
theorem c6_process_pure_witness : process exData none = process exData none :=
  c6_process_pure exData exData none none rfl rfl

/-- The descriptor lookup of lines 100-104 falls back to `huid` on any
unrecognised policy. -/
theorem studentField_fallback (pol : Option String) (h1 : pol ≠ some "huid")
    (h2 : pol ≠ some "name") : studentField pol = studentField (some "huid") := by
  unfold studentField
  rw [if_neg (by simpa using h1), if_neg (by simpa using h2), if_pos (by simp)]

/-- C7: Identifier-policy fallback — for every policy value other than
`huid` and `name` (including an absent one), `process` produces exactly
the output it produces under `huid`. -/
theorem c7_policy_fallback (data : InputData) (pol : Option String)
    (h1 : pol ≠ some "huid") (h2 : pol ≠ some "name") :
    process data pol = process data (some "huid") := by
  unfold process
  rw [studentField_fallback pol h1 h2]

/-- Witness for C7: an unrecognised policy string behaves like `huid`. -/
theorem c7_policy_fallback_witness :
    process exData (some "bogus") = process exData (some "huid") :=
  c7_policy_fallback exData (some "bogus") (by decide) (by decide)

/-- C4: Total lateness — every report's `total_lateness_seconds` is the
sum of exactly the present, strictly positive per-assignment deltas (the
zero, negative and absent ones contributing nothing while remaining in the
per-assignment rows), and so is non-negative. -/
theorem c4_total_lateness (data : InputData) (pol : Option String)
    (rs : List StudentReport) (hok : process data pol = .ok rs)
    (r : StudentReport) (hr : r ∈ rs) :
    r.total_lateness_seconds =
      ((r.assignments.filterMap (fun ar => ar.time_delta_seconds)).filter
        (fun d => decide (0 < d))).sum ∧
    0 ≤ r.total_lateness_seconds := by
  rcases process_report_shape hok hr with ⟨st, _, _, _, htot, _⟩
  constructor
  · rw [htot, sum_lateContrib_eq]
  · rw [htot]
    exact sum_lateContrib_nonneg _

/-- Witness for C4: the early submitter's report has total 0 although its
row carries delta −7200. -/
theorem c4_total_lateness_witness :
    exReport2.total_lateness_seconds =
      ((exReport2.assignments.filterMap (fun ar => ar.time_delta_seconds)).filter
        (fun d => decide (0 < d))).sum ∧
    0 ≤ exReport2.total_lateness_seconds :=
  c4_total_lateness exData none exOut (by rw [process_eq_processEval]; rfl)
    exReport2 (by decide)

/-- C9: Hours from seconds — every report's `total_lateness_hours` is the
floor of `total_lateness_seconds / 3600`, which coincides with truncation
toward zero because the total is non-negative. -/
theorem c9_hours_floor (data : InputData) (pol : Option String)
    (rs : List StudentReport) (hok : process data pol = .ok rs)
    (r : StudentReport) (hr : r ∈ rs) :
    r.total_lateness_hours = Int.fdiv r.total_lateness_seconds 3600 ∧
    Int.fdiv r.total_lateness_seconds 3600 = Int.tdiv r.total_lateness_seconds 3600 := by
  rcases process_report_shape hok hr with ⟨st, _, _, _, htot, hhours⟩
  have hnn : 0 ≤ r.total_lateness_seconds := by
    rw [htot]
    exact sum_lateContrib_nonneg _
  have heq : Int.fdiv r.total_lateness_seconds 3600 = Int.tdiv r.total_lateness_seconds 3600 := by
    rw [Int.fdiv_eq_ediv _ (by norm_num), Int.tdiv_eq_ediv hnn (by norm_num)]
  refine ⟨?_, heq⟩
  rw [hhours, heq, ← htot]

/-- Witness for C9: 9000 seconds floor to 2 hours. -/
theorem c9_hours_floor_witness :
    exReport1.total_lateness_hours = Int.fdiv exReport1.total_lateness_seconds 3600 ∧
    Int.fdiv exReport1.total_lateness_seconds 3600 =
      Int.tdiv exReport1.total_lateness_seconds 3600 :=
  c9_hours_floor exData none exOut (by rw [process_eq_processEval]; rfl)
    exReport1 (by decide)

/-- C3: Delta definition — in every emitted row, `time_delta_seconds` is
the submission instant minus the due instant in whole seconds when both
timestamps are present, and absent (never zero) when the submission
timestamp is absent; the due timestamp of an emitted row always parses.
The spec's examples hold: due 17:00 with submission 19:30 gives 9000 and
with submission 15:00 gives −7200. -/
theorem c3_delta_definition (data : InputData) (pol : Option String)
    (rs : List StudentReport) (hok : process data pol = .ok rs)
    (r : StudentReport) (hr : r ∈ rs) (ar : AssignmentResult) (har : ar ∈ r.assignments) :
    (∃ dt, parseTs ar.due_date_iso = some dt ∧
      (pyOptStrTruthy ar.submission_date_iso = false → ar.time_delta_seconds = none) ∧
      (pyOptStrTruthy ar.submission_date_iso = true →
        ∃ ts, parseTs (ar.submission_date_iso.getD "") = some ts ∧
          ar.time_delta_seconds = some (ts - dt))) ∧
    parseTs "2023-01-10T17:00:00Z" = some 1673370000 ∧
    parseTs "2023-01-10T19:30:00Z" = some 1673379000 ∧
    parseTs "2023-01-10T15:00:00Z" = some 1673362800 ∧
    (1673379000 - 1673370000 : Int) = 9000 ∧
    (1673362800 - 1673370000 : Int) = -7200 := by
  rcases process_row_shape hok hr har with ⟨a, _, _, _, _, _, hrow, _, _⟩
  rcases hrow with ⟨dt, hp, _, hfalse, htrue⟩
  refine ⟨⟨dt, hp, fun hf => (hfalse hf).1, fun ht => ?_⟩, rfl, rfl, rfl, rfl, rfl⟩
  rcases htrue ht with ⟨ts, h1, h2, _⟩
  exact ⟨ts, h1, h2⟩

/-- Witness for C3 on the late submitter's row. -/
theorem c3_delta_definition_witness :
    (∃ dt, parseTs exRowStudent1.due_date_iso = some dt ∧
      (pyOptStrTruthy exRowStudent1.submission_date_iso = false →
        exRowStudent1.time_delta_seconds = none) ∧
      (pyOptStrTruthy exRowStudent1.submission_date_iso = true →
        ∃ ts, parseTs (exRowStudent1.submission_date_iso.getD "") = some ts ∧
          exRowStudent1.time_delta_seconds = some (ts - dt))) ∧
    parseTs "2023-01-10T17:00:00Z" = some 1673370000 ∧
    parseTs "2023-01-10T19:30:00Z" = some 1673379000 ∧
    parseTs "2023-01-10T15:00:00Z" = some 1673362800 ∧
    (1673379000 - 1673370000 : Int) = 9000 ∧
    (1673362800 - 1673370000 : Int) = -7200 :=
  c3_delta_definition exData none exOut (by rw [process_eq_processEval]; rfl)
    exReport1 (by decide) exRowStudent1 (by decide)

/-- C10 counterexample: an input in which an assignment has no
corresponding submissions entry, yet `process` returns normally, because
there are no students and the per-assignment lookup is never reached. -/
theorem c10_counterexample :
    (∃ a ∈ cexData.assignments, ∀ it ∈ cexData.submissions, it.assignment_id ≠ a.id) ∧
    process cexData none = .ok [] := by
  constructor
  · exact ⟨exAssignment1, by decide, fun it hit => absurd hit (List.not_mem_nil it)⟩
  · rw [process_eq_processEval]
    rfl

/-- C10 (amended): provided at least one student exists, an assignment id
with no submissions entry makes `process` fail (the `KeyError` lookup on
line 131 — or an earlier per-record error — aborts the run) instead of
being treated as having zero submissions. -/
theorem c10_coverage_required (data : InputData) (pol : Option String)
    (hstu : data.students ≠ [])
    (a : Assignment) (ha : a ∈ data.assignments)
    (hmiss : ∀ it ∈ data.submissions, it.assignment_id ≠ a.id) :
    ∃ e, process data pol = .error e := by
  have hnone : dictGet (theByA data) a.id = none := by
    unfold theByA groupSubs
    rw [foldl_groupStep_byA_none _ _ _ _ hmiss]
    rfl
  have hsne : sortedStudents pol data ≠ [] := by
    unfold sortedStudents
    intro h0
    have hlen := congrArg List.length h0
    simp only [List.length_mergeSort, List.length_nil] at hlen
    exact hstu (List.length_eq_zero.mp hlen)
  obtain ⟨st0, hst0⟩ := List.exists_mem_of_ne_nil _ hsne
  have hmemA : a ∈ sortedAssignments data := by
    unfold sortedAssignments
    exact List.mem_mergeSort.mpr ha
  have herr : ∃ e0, processAssignment (theByA data) (theByS data) st0 a = .error e0 :=
    ⟨.keyError a.id, processAssignment_keyError _ _ _ _ hnone⟩
  rcases foldE_assignStep_error (theByA data) (theByS data) st0 (sortedAssignments data)
    ([], 0) hmemA herr with ⟨e1, he1⟩
  have he2 : studentReport (studentField pol) (theByA data) (theByS data)
      (sortedAssignments data) st0 = .error e1 := by
    unfold studentReport
    rw [he1]
  rcases mapE_error_of_mem hst0 he2 with ⟨e, he⟩
  exact ⟨e, by rw [process_eq]; exact he⟩

/-- Witness for the amended C10: one student, one assignment, no
submissions entries — the run fails. -/
theorem c10_coverage_required_witness : ∃ e, process cexDataStu none = .error e :=
  c10_coverage_required cexDataStu none (by decide) exAssignment1 (by decide)
    (fun it hit => absurd hit (List.not_mem_nil it))

/-- C8: Missing identifier value is not an error — in a successful run,
every student whose identifier-policy field is absent still appears in the
output with the raw absent value as display name; and success of the run
never depends on the identifier fields: replacing the students by any list
with the same ids (in order) preserves success. -/
theorem c8_missing_identifier (data : InputData) (pol : Option String)
    (rs : List StudentReport) (hok : process data pol = .ok rs)
    (st : Student) (hst : st ∈ data.students) (hmiss : studentField pol st = none) :
    (∃ r ∈ rs, r.student_id = st.id ∧ r.student_name = none) ∧
    (∀ students2 : List Student,
      students2.map (fun s => s.id) = data.students.map (fun s => s.id) →
      ∃ rs2, process { data with students := students2 } pol = .ok rs2) := by
  constructor
  · have hst2 : st ∈ sortedStudents pol data := by
      unfold sortedStudents
      exact List.mem_mergeSort.mpr hst
    rcases mapE_mem_ok (by rw [← process_eq]; exact hok) hst2 with ⟨r, hrmem, hrep⟩
    rcases (studentReport_ok_iff _ _ _ _ _ _).mp hrep with ⟨os, _, rfl⟩
    exact ⟨_, hrmem, rfl, hmiss⟩
  · intro students2 hids
    have hAll : ∀ s ∈ data.students, ∃ os,
        mapE (processAssignment (theByA data) (theByS data) s) (sortedAssignments data)
          = .ok os := by
      intro s hs
      have hs2 : s ∈ sortedStudents pol data := by
        unfold sortedStudents
        exact List.mem_mergeSort.mpr hs
      rcases mapE_mem_ok (by rw [← process_eq]; exact hok) hs2 with ⟨r, _, hrep⟩
      rcases (studentReport_ok_iff _ _ _ _ _ _).mp hrep with ⟨os, hos, _⟩
      exact ⟨os, hos⟩
    have hAll2 : ∀ s2 ∈ sortedStudents pol { data with students := students2 },
        ∃ r, studentReport (studentField pol) (theByA data) (theByS data)
          (sortedAssignments data) s2 = .ok r := by
      intro s2 hs2
      have hs2m : s2 ∈ students2 := by
        unfold sortedStudents at hs2
        exact List.mem_mergeSort.mp hs2
      have hid2 : s2.id ∈ data.students.map (fun s => s.id) := by
        rw [← hids]
        exact List.mem_map_of_mem _ hs2m
      rcases List.mem_map.mp hid2 with ⟨s, hs, hsid⟩
      rcases hAll s hs with ⟨os, hos⟩
      refine ⟨_, (studentReport_ok_iff _ _ _ _ _ _).mpr ⟨os, ?_, rfl⟩⟩
      rw [mapE_congr _ (fun a _ => processAssignment_id_only (theByA data) (theByS data)
        s2 s a hsid.symm)]
      exact hos
    rcases mapE_ok_of_forall _ _ hAll2 with ⟨rs2, hrs2⟩
    exact ⟨rs2, by rw [process_eq]; exact hrs2⟩

/-- Witness for C8: the student with absent `sis_user_id` appears with an
absent display name, and replacing both students' identifier fields by
absent values keeps the run successful. -/
theorem c8_missing_identifier_witness :
    (∃ r ∈ exOut, r.student_id = exStudent2.id ∧ r.student_name = none) ∧
    (∃ rs2, process { exData with
      students := [{ id := 1, sis_user_id := none, sortable_name := none, name := none },
                   exStudent2] } none = .ok rs2) :=
  ⟨(c8_missing_identifier exData none exOut (by rw [process_eq_processEval]; rfl)
      exStudent2 (by decide) rfl).1,
   (c8_missing_identifier exData none exOut (by rw [process_eq_processEval]; rfl)
      exStudent2 (by decide) rfl).2
    [{ id := 1, sis_user_id := none, sortable_name := none, name := none }, exStudent2]
    (by decide)⟩

/-- C1: Global assignment skip — in a successful run on well-formed input
(assignment ids unique, one submissions entry per assignment id as the
spec's mapping requires), an assignment with zero submission records
across all students or with no due timestamp appears in no report, and
otherwise a row for it appears in every report: the skip decision is
global, identical for all students. -/
theorem c1_global_skip (data : InputData) (pol : Option String)
    (rs : List StudentReport) (hok : process data pol = .ok rs)
    (hA : (data.assignments.map (fun a => a.id)).Nodup)
    (hS : (data.submissions.map (fun it => it.assignment_id)).Nodup)
    (a : Assignment) (ha : a ∈ data.assignments) :
    (skippedGlobal data a = true →
      ∀ r ∈ rs, ∀ ar ∈ r.assignments, ar.assignment_id ≠ a.id) ∧
    (skippedGlobal data a = false →
      ∀ r ∈ rs, ∃ ar ∈ r.assignments, ar.assignment_id = a.id) := by
  constructor
  · intro hskip r hr ar har hid
    rcases forall₂_mem_right (process_ok_forall₂ hok) hr with ⟨st, _, hrep⟩
    rcases (studentReport_ok_iff _ _ _ _ _ _).mp hrep with ⟨os, hos, rfl⟩
    simp only [] at har
    have hsome : some ar ∈ os := List.reduceOption_mem_iff.mp har
    rcases forall₂_mem_right ((mapE_ok_iff _ _ _).mp hos) hsome with ⟨a2, ha2, hpa⟩
    have ha2mem : a2 ∈ data.assignments := by
      unfold sortedAssignments at ha2
      exact List.mem_mergeSort.mp ha2
    have hid2 : a2.id = a.id := by rw [← processAssignment_some_id hpa, hid]
    have ha2a : a2 = a := List.inj_on_of_nodup_map hA ha2mem ha hid2
    subst ha2a
    have hiff := processAssignment_none_iff_skipped hS ha2mem hpa
    rw [hskip] at hiff
    cases hiff.mpr rfl
  · intro hskip r hr
    rcases forall₂_mem_right (process_ok_forall₂ hok) hr with ⟨st, _, hrep⟩
    rcases (studentReport_ok_iff _ _ _ _ _ _).mp hrep with ⟨os, hos, rfl⟩
    have hamem : a ∈ sortedAssignments data := by
      unfold sortedAssignments
      exact List.mem_mergeSort.mpr ha
    rcases mapE_mem_ok hos hamem with ⟨o, homem, hpa⟩
    have hiff := processAssignment_none_iff_skipped hS ha hpa
    cases o with
    | none =>
      rw [hiff.mp rfl] at hskip
      cases hskip
    | some ar =>
      refine ⟨ar, ?_, processAssignment_some_id hpa⟩
      simp only []
      exact List.reduceOption_mem_iff.mpr homem

/-- Witness for C1: the due-dated assignment 10 appears in both reports,
the dueless assignment 11 in neither. -/
theorem c1_global_skip_witness :
    ((skippedGlobal exData exAssignment2 = true →
      ∀ r ∈ exOut, ∀ ar ∈ r.assignments, ar.assignment_id ≠ exAssignment2.id) ∧
    (skippedGlobal exData exAssignment2 = false →
      ∀ r ∈ exOut, ∃ ar ∈ r.assignments, ar.assignment_id = exAssignment2.id)) ∧
    ((skippedGlobal exData exAssignment1 = true →
      ∀ r ∈ exOut, ∀ ar ∈ r.assignments, ar.assignment_id ≠ exAssignment1.id) ∧
    (skippedGlobal exData exAssignment1 = false →
      ∀ r ∈ exOut, ∃ ar ∈ r.assignments, ar.assignment_id = exAssignment1.id)) :=
  ⟨c1_global_skip exData none exOut (by rw [process_eq_processEval]; rfl)
      (by decide) (by decide) exAssignment2 (by decide),
   c1_global_skip exData none exOut (by rw [process_eq_processEval]; rfl)
      (by decide) (by decide) exAssignment1 (by decide)⟩

/-- C2: Most-recent-submission rule — in a successful run on well-formed
input (one submissions entry per assignment id, each submission record
carrying its entry's assignment id), a student's row for an assignment is
computed from the submission with the greatest submission timestamp: the
row's timestamp is the maximum of that student's submission timestamps for
the assignment, and by `rowDelta` its display string and delta are
computed from that timestamp. -/
theorem c2_most_recent (data : InputData) (pol : Option String)
    (rs : List StudentReport) (hok : process data pol = .ok rs)
    (hS : (data.submissions.map (fun it => it.assignment_id)).Nodup)
    (hwf : ∀ it ∈ data.submissions, ∀ s ∈ it.submissions, s.assignment_id = it.assignment_id)
    (st : Student) (r : StudentReport) (hr : r ∈ rs) (hrid : r.student_id = st.id)
    (ar : AssignmentResult) (har : ar ∈ r.assignments)
    (hne : studentSubsFor data st.id ar.assignment_id ≠ []) :
    ar.submission_date_iso =
      maxTs ((studentSubsFor data st.id ar.assignment_id).map (fun s => s.submitted_at)) ∧
    rowDelta ar := by
  rcases process_row_shape hok hr har with ⟨a, hamem, hid, _, _, htruthy, hrow, _, hiso⟩
  have hall := allSubsFor_char data hS a.id
  rw [hid] at hne
  cases hf : data.submissions.find? (fun it => it.assignment_id == a.id) with
  | none =>
    exfalso
    apply hne
    unfold studentSubsFor
    rw [hall, hf]
    rfl
  | some item =>
    have hitem : item ∈ data.submissions := List.mem_of_find?_eq_some hf
    have hwf2 : ∀ s ∈ item.submissions, s.assignment_id = item.assignment_id :=
      hwf item hitem
    have hssf : studentSubsFor data st.id a.id =
        item.submissions.filter (fun s => s.user_id == st.id) := by
      unfold studentSubsFor
      rw [hall, hf]
    have hne2 : item.submissions.filter (fun s => s.user_id == st.id) ≠ [] := by
      rw [← hssf]
      exact hne
    obtain ⟨x, hgl, hmax⟩ :=
      mergeSort_filter_last_eq_maxTs item.submissions item.assignment_id st.id hwf2 hne2
    have hbys : (dictGet (theByS data) (st.id, a.id)).getD [] =
        (item.submissions.mergeSort subKeyLe).filter (fun s => s.user_id == st.id) := by
      rw [theByS_char data hS hamem st.id, hf]
    rw [hrid, hbys, hgl] at hiso
    refine ⟨?_, hrow⟩
    rw [hid, hssf]
    exact hiso.trans hmax

/-- Witness for C2: student 1 submitted at 15:00 and then at 19:30; the
row is computed from the 19:30 submission. -/
theorem c2_most_recent_witness :
    exRowStudent1.submission_date_iso =
      maxTs ((studentSubsFor exData exStudent1.id exRowStudent1.assignment_id).map
        (fun s => s.submitted_at)) ∧
    rowDelta exRowStudent1 :=
  c2_most_recent exData none exOut (by rw [process_eq_processEval]; rfl)
    (by decide) (by decide) exStudent1 exReport1 (by decide) rfl
    exRowStudent1 (by decide) (by decide)

/-! ## Ordering lemmas for C5 -/

theorem assignLe_eq_keyPairLe (a b : Assignment) :
    assignLe a b = keyPairLe (groupPosKey a) (groupPosKey b) := rfl

theorem keyPairLe_refl (x : Int × Int) : keyPairLe x x = true := by
  unfold keyPairLe
  rw [if_pos rfl]
  simp

theorem assignKeyOf_self (data : InputData)
    (hA : (data.assignments.map (fun x => x.id)).Nodup)
    {a : Assignment} (ha : a ∈ data.assignments) :
    assignKeyOf data a.id = groupPosKey a := by
  unfold assignKeyOf
  rw [find?_key_eq_self (fun x => x.id) data.assignments a hA ha]

theorem forall₂_reports_map_name {field : Student → Option String}
    {byA : List (Nat × List Submission)} {byS : List ((Nat × Nat) × List Submission)}
    {sa : List Assignment} {ss : List Student} {rs : List StudentReport}
    (h : List.Forall₂ (fun s r => studentReport field byA byS sa s = .ok r) ss rs) :
    rs.map (fun r => r.student_name) = ss.map field := by
  induction h with
  | nil => rfl
  | @cons s r ss2 rs2 hf hrest ih =>
    rcases (studentReport_ok_iff _ _ _ _ _ _).mp hf with ⟨os, _, rfl⟩
    rw [List.map_cons, List.map_cons, ih]

theorem forall₂_reports_filter_map {field : Student → Option String}
    {byA : List (Nat × List Submission)} {byS : List ((Nat × Nat) × List Submission)}
    {sa : List Assignment} {ss : List Student} {rs : List StudentReport}
    (h : List.Forall₂ (fun s r => studentReport field byA byS sa s = .ok r) ss rs)
    (v : Option String) :
    (rs.filter (fun r => r.student_name == v)).map (fun r => r.student_id) =
    (ss.filter (fun s => field s == v)).map (fun s => s.id) := by
  induction h with
  | nil => rfl
  | @cons s r ss2 rs2 hf hrest ih =>
    rcases (studentReport_ok_iff _ _ _ _ _ _).mp hf with ⟨os, _, rfl⟩
    simp only [List.filter_cons]
    by_cases hv : (field s == v) = true
    · rw [if_pos hv, if_pos hv, List.map_cons, List.map_cons, ih]
    · rw [if_neg hv, if_neg hv, ih]

theorem rows_keys_sublist {data : InputData} {byA : List (Nat × List Submission)}
    {byS : List ((Nat × Nat) × List Submission)} {st : Student}
    {sa : List Assignment} {os : List (Option AssignmentResult)}
    (h : List.Forall₂ (fun a o => processAssignment byA byS st a = .ok o) sa os) :
    List.Sublist (os.reduceOption.map (fun ar => assignKeyOf data ar.assignment_id))
      (sa.map (fun a => assignKeyOf data a.id)) := by
  induction h with
  | nil => exact List.Sublist.refl _
  | @cons a o sa2 os2 hf hrest ih =>
    cases o with
    | none =>
      simp only [List.reduceOption_cons_of_none, List.map_cons]
      exact List.Sublist.cons _ ih
    | some ar =>
      simp only [List.reduceOption_cons_of_some, List.map_cons]
      rw [processAssignment_some_id hf]
      exact List.Sublist.cons₂ _ ih

theorem sortedAssignments_keys_pairwise (data : InputData)
    (hA : (data.assignments.map (fun x => x.id)).Nodup) :
    ((sortedAssignments data).map (fun a => assignKeyOf data a.id)).Pairwise
      (fun x y => keyPairLe x y = true) := by
  refine List.pairwise_map.mpr ?_
  have hs := List.sorted_mergeSort assignLe_trans assignLe_total data.assignments
  refine List.Pairwise.imp_of_mem ?_ hs
  intro a b hma hmb hr
  rw [assignKeyOf_self data hA (List.mem_mergeSort.mp hma),
    assignKeyOf_self data hA (List.mem_mergeSort.mp hmb), ← assignLe_eq_keyPairLe]
  exact hr

theorem rows_filter_eq {data : InputData} {st : Student}
    {sa : List Assignment} {os : List (Option AssignmentResult)}
    (hS : (data.submissions.map (fun it => it.assignment_id)).Nodup)
    (hA : (data.assignments.map (fun x => x.id)).Nodup)
    (hsub : ∀ a ∈ sa, a ∈ data.assignments)
    (h : List.Forall₂ (fun a o =>
      processAssignment (theByA data) (theByS data) st a = .ok o) sa os)
    (k : Int × Int) :
    (os.reduceOption.filter (fun ar => assignKeyOf data ar.assignment_id == k)).map
        (fun ar => ar.assignment_id) =
      (sa.filter (fun a => groupPosKey a == k && !skippedGlobal data a)).map
        (fun a => a.id) := by
  induction h with
  | nil => rfl
  | @cons a o sa2 os2 hf hrest ih =>
    have hamem : a ∈ data.assignments := hsub a (List.mem_cons_self _ _)
    have hiff := processAssignment_none_iff_skipped hS hamem hf
    have hsub2 : ∀ x ∈ sa2, x ∈ data.assignments :=
      fun x hx => hsub x (List.mem_cons_of_mem _ hx)
    cases o with
    | none =>
      have hskip : skippedGlobal data a = true := hiff.mp rfl
      simp only [List.reduceOption_cons_of_none, List.filter_cons]
      rw [if_neg (by simp [hskip])]
      exact ih hsub2
    | some ar =>
      have hskip : skippedGlobal data a = false := by
        cases hsk : skippedGlobal data a
        · rfl
        · cases hiff.mpr hsk
      have hkey : assignKeyOf data ar.assignment_id = groupPosKey a := by
        rw [processAssignment_some_id hf]
        exact assignKeyOf_self data hA hamem
      simp only [List.reduceOption_cons_of_some, List.filter_cons]
      by_cases hv : (groupPosKey a == k) = true
      · rw [if_pos (by rw [hkey]; exact hv), if_pos (by simp [hv, hskip]),
          List.map_cons, List.map_cons, processAssignment_some_id hf, ih hsub2]
      · rw [if_neg (by rw [hkey]; exact fun hc => hv hc), if_neg (by simp [hskip, hv]),
          ih hsub2]

/-- C5: Ordering — in a successful run on well-formed input, reports are
sorted ascending (case-sensitively) by the identifier-policy field with
ties keeping original fetch order (the key-`v` slice of the output lists
exactly the key-`v` students in input order, so the order depends only on
that field); and within each report the rows are sorted by (group id with
default 0, then position), the key-`k` slice listing exactly the
non-skipped key-`k` assignments in input order, independent of the
submission data except through the global skip. -/
theorem c5_ordering (data : InputData) (pol : Option String)
    (rs : List StudentReport) (hok : process data pol = .ok rs)
    (hA : (data.assignments.map (fun x => x.id)).Nodup)
    (hS : (data.submissions.map (fun it => it.assignment_id)).Nodup) :
    ((rs.map (fun r => r.student_name)).Pairwise (fun x y => pyLeOptStr x y = true)) ∧
    (∀ v : Option String,
      (rs.filter (fun r => r.student_name == v)).map (fun r => r.student_id) =
      (data.students.filter (fun s => studentField pol s == v)).map (fun s => s.id)) ∧
    (∀ r ∈ rs, (r.assignments.map (fun ar => assignKeyOf data ar.assignment_id)).Pairwise
        (fun x y => keyPairLe x y = true)) ∧
    (∀ r ∈ rs, ∀ k : Int × Int,
      (r.assignments.filter (fun ar => assignKeyOf data ar.assignment_id == k)).map
          (fun ar => ar.assignment_id) =
      (data.assignments.filter (fun a => groupPosKey a == k && !skippedGlobal data a)).map
          (fun a => a.id)) := by
  have hF := process_ok_forall₂ hok
  refine ⟨?_, ?_, ?_, ?_⟩
  · rw [forall₂_reports_map_name hF]
    unfold sortedStudents
    refine List.pairwise_map.mpr ?_
    exact @List.sorted_mergeSort Student
      (fun s t => pyLeOptStr (studentField pol s) (studentField pol t))
      (fun a b c h1 h2 => pyLeOptStr_trans h1 h2)
      (fun a b => pyLeOptStr_total_bool _ _) data.students
  · intro v
    rw [forall₂_reports_filter_map hF v]
    unfold sortedStudents
    rw [filter_mergeSort_of_const
      (fun s t => pyLeOptStr (studentField pol s) (studentField pol t))
      (fun a b c h1 h2 => pyLeOptStr_trans h1 h2)
      (fun a b => pyLeOptStr_total_bool _ _)
      (fun s => studentField pol s == v) data.students ?_]
    intro a _ b _ pa pb
    have hva : studentField pol a = v := by simpa using pa
    have hvb : studentField pol b = v := by simpa using pb
    show pyLeOptStr (studentField pol a) (studentField pol b) = true
    rw [hva, hvb]
    exact pyLeOptStr_refl v
  · intro r hr
    rcases forall₂_mem_right hF hr with ⟨st, _, hrep⟩
    rcases (studentReport_ok_iff _ _ _ _ _ _).mp hrep with ⟨os, hos, rfl⟩
    simp only []
    refine List.Pairwise.sublist (rows_keys_sublist ((mapE_ok_iff _ _ _).mp hos))
      (sortedAssignments_keys_pairwise data hA)
  · intro r hr k
    rcases forall₂_mem_right hF hr with ⟨st, _, hrep⟩
    rcases (studentReport_ok_iff _ _ _ _ _ _).mp hrep with ⟨os, hos, rfl⟩
    simp only []
    rw [rows_filter_eq hS hA
      (fun a ha => by
        unfold sortedAssignments at ha
        exact List.mem_mergeSort.mp ha)
      ((mapE_ok_iff _ _ _).mp hos) k]
    unfold sortedAssignments
    rw [filter_mergeSort_of_const assignLe assignLe_trans assignLe_total
      (fun a => groupPosKey a == k && !skippedGlobal data a) data.assignments ?_]
    intro a _ b _ pa pb
    have hka : groupPosKey a = k := by
      rcases Bool.and_eq_true_iff.mp pa with ⟨h1, _⟩
      simpa using h1
    have hkb : groupPosKey b = k := by
      rcases Bool.and_eq_true_iff.mp pb with ⟨h1, _⟩
      simpa using h1
    show assignLe a b = true
    rw [assignLe_eq_keyPairLe, hka, hkb]
    exact keyPairLe_refl k

/-- Witness for C5 at the concrete run. -/
theorem c5_ordering_witness :
    ((exOut.map (fun r => r.student_name)).Pairwise (fun x y => pyLeOptStr x y = true)) ∧
    (∀ v : Option String,
      (exOut.filter (fun r => r.student_name == v)).map (fun r => r.student_id) =
      (exData.students.filter (fun s => studentField none s == v)).map (fun s => s.id)) ∧
    (∀ r ∈ exOut, (r.assignments.map (fun ar => assignKeyOf exData ar.assignment_id)).Pairwise
        (fun x y => keyPairLe x y = true)) ∧
    (∀ r ∈ exOut, ∀ k : Int × Int,
      (r.assignments.filter (fun ar => assignKeyOf exData ar.assignment_id == k)).map
          (fun ar => ar.assignment_id) =
      (exData.assignments.filter (fun a => groupPosKey a == k && !skippedGlobal exData a)).map
          (fun a => a.id)) :=
  c5_ordering exData none exOut (by rw [process_eq_processEval]; rfl) (by decide) (by decide)

end CanvasLateness
